import Mathlib

/-!
zBasic: a shallow embedding of `src/main.c`

The interpreter keeps all of its state in C globals (`vars`, `mem`, `cur`,
`end`, `running`, `loop_stack`, `loop_head`).  The embedding gathers them in one
record `State` and passes it explicitly.  `error()` performs a `longjmp` to the
line driver, so every operation returns a `Res`: either a value with the new
state, or an error kind together with the state the globals are left in.

`val` is the C type `float`.  Its primitive operations (conversions, arithmetic,
comparisons, object representation, `strtof`) are not written in `main.c`; they
are collected in the record `ValOps` and every definition takes them as a
parameter.  `intOps` is the instance used for evaluating concrete inputs: exact
integer arithmetic, which is what binary32 computes as long as all operands and
results are integers of magnitude at most `2^24`.  `fixOps` is a second
instance, binary fixed point with six fractional bits, for inputs that hold
fractions such as `.5`, and `f32Ops` a third, integers rounded to the 24
significant bits of binary32, for integers beyond `2^24`.

Loops and recursion of the C code are driven by a fuel argument; running out of
fuel yields `Res.hang`, which is never confused with a result.

The build has `DEBUG_LEX` defined, which makes `lex` dump every token to
standard output; that tracing is not modelled.  `DEBUG_RUN` is not defined,
hence `NDEBUG` is, `assert` expands to nothing and `printd` has an empty body.
-/

namespace ZBasic

/-! ## Constants, error kinds and tokens -/

def ZB_MEM_SIZE : Nat := 2048
def ZB_VAR_NAME_LEN : Nat := 7
def ZB_VAR_COUNT : Nat := 32
def ZB_MAX_DEPTH : Nat := 8

def VAR_TYPE_VAL : Nat := 0
def VAR_TYPE_CFUNC : Nat := 1

/-- The number of bytes of a `val` (`sizeof(float)`). -/
def sizeof_val : Nat := 4

inductive zb_err where
  | E_SYNTAX_ERROR | E_VAR_MEM_FULL | E_UNTERM_STR | E_MEM_FULL
  | E_EXPECTED | E_DIV_BY_ZERO | E_NESTED_RUN | E_LINE_NOT_FOUND
  | E_STACK_OVERFLOW | E_NEXT_WITHOUT_FOR | E_ASSERT | E_NOT_LVALUE
  deriving DecidableEq, Repr

open zb_err

/-- The message `error()` prints for an error kind (`errmsg[]`). -/
def errmsg : zb_err → String
  | E_SYNTAX_ERROR => "Syntax error"
  | E_VAR_MEM_FULL => "Too many variables"
  | E_UNTERM_STR => "Unterminated string"
  | E_MEM_FULL => "Mem full"
  | E_EXPECTED => "Expected"
  | E_DIV_BY_ZERO => "Division by zero"
  | E_NESTED_RUN => "Nested run"
  | E_LINE_NOT_FOUND => "Line not found"
  | E_STACK_OVERFLOW => "Stack overflow"
  | E_NEXT_WITHOUT_FOR => "Next without for"
  | E_ASSERT => "Assert failed"
  | E_NOT_LVALUE => "Not an lvalue"

/-! The enumeration `zb_tok`; tokens are stored in `mem` as bytes, so they are
numbers here. -/

def TOK_ASSIGN : Nat := 0
def TOK_MINUS : Nat := 1
def TOK_PLUS : Nat := 2
def TOK_MUL : Nat := 3
def TOK_DIV : Nat := 4
def TOK_MOD : Nat := 5
def TOK_LT : Nat := 6
def TOK_LE : Nat := 7
def TOK_EQ : Nat := 8
def TOK_NE : Nat := 9
def TOK_GE : Nat := 10
def TOK_GT : Nat := 11
def TOK_POW : Nat := 12
def TOK_AND : Nat := 13
def TOK_OR : Nat := 14
def TOK_BAND : Nat := 15
def TOK_BOR : Nat := 16
def TOK_BXOR : Nat := 17
def TOK_LSH : Nat := 18
def TOK_RSH : Nat := 19
def TOK_NOT : Nat := 20
def TOK_BNOT : Nat := 21
def TOK_ELSE : Nat := 22
def TOK_FOR : Nat := 23
def TOK_GOSUB : Nat := 24
def TOK_GOTO : Nat := 25
def TOK_IF : Nat := 26
def TOK_NEXT : Nat := 27
def TOK_RETURN : Nat := 28
def TOK_RUN : Nat := 29
def TOK_THEN : Nat := 30
def TOK_TO : Nat := 31
def TOK_PRINT : Nat := 32
def TOK_END : Nat := 33
def TOK_STEP : Nat := 34
def TOK_COLON : Nat := 35
def TOK_OPEN : Nat := 36
def TOK_CLOSE : Nat := 37
def TOK_SEMI : Nat := 38
def TOK_COMMA : Nat := 39
def TOK_CHUNK : Nat := 40
def TOK_LIT : Nat := 41
def TOK_VAR : Nat := 42
def TOK_STR : Nat := 43
def TOK_NONE : Nat := 44
def TOK_EOF : Nat := 45
def NUM_TOKENS : Nat := 46

def BINOP_COUNT : Nat := TOK_RSH + 1

/-- The table `binop_prec[BINOP_COUNT]`, indexed by token. -/
def binop_prec (tok : Nat) : Nat :=
  [0, 9, 9, 10, 10, 10, 7, 7, 6, 6, 7, 7, 12, 2, 1, 5, 3, 4, 8, 8].getD tok 0

/-- The lexemes of `tokstr`, in token order; the C string separates them by NUL. -/
def toknames : List String :=
  ["=", "-", "+", "*", "/", "%", "<", "<=", "==", "!=", ">=",
   ">", "**", "and", "or", "&", "|", "^", "<<", ">>",
   "!", "~",
   "else", "for", "gosub", "goto", "if", "next", "return",
   "run", "then", "to", "print", "end", "step", ":",
   "(", ")", ";", ",",
   "CHU", "LIT", "VAR", "STR", "NON", "EOF"]

/-- The bytes of a string literal. -/
def bytes (s : String) : List Nat := s.toList.map Char.toNat

/-- The byte array `tokstr`: every lexeme followed by a NUL (the last NUL is the
terminator of the C string literal). -/
def tokstr : List Nat := (toknames.map (fun s => bytes s ++ [0])).flatten

/-! ## Values -/

/-- The primitive operations of the C type `val` (`float`) that `main.c` uses. -/
structure ValOps (val : Type) where
  /-- Conversion of an integer to `val`, as in `v = b0`. -/
  ofInt : Int → val
  /-- Conversion of a `val` to an integer, as in `int vi = v` (truncation). -/
  toInt : val → Int
  add : val → val → val
  sub : val → val → val
  mul : val → val → val
  div : val → val → val
  pow : val → val → val
  neg : val → val
  lt : val → val → Bool
  le : val → val → Bool
  eq : val → val → Bool
  /-- The `sizeof(val)` bytes of the object representation, `*(val *)b = v`. -/
  raw : val → List Nat
  /-- Reading a `val` from its object representation, `v = *(val *)(mem+cur)`. -/
  unraw : List Nat → val
  /-- The library function `strtof`: the value and the number of bytes consumed. -/
  strtof : List Nat → val × Nat
  /-- The k-th value of `rand() / (val)RAND_MAX`. -/
  rnd : Nat → val

/-- The value of a run of decimal digits. -/
def digitsVal : List Nat → Nat → Nat
  | [], acc => acc
  | c :: cs, acc => if 48 ≤ c ∧ c ≤ 57 then digitsVal cs (acc * 10 + (c - 48)) else acc

/-- The length of the leading run of decimal digits. -/
def digitsLen : List Nat → Nat
  | [] => 0
  | c :: cs => if 48 ≤ c ∧ c ≤ 57 then digitsLen cs + 1 else 0

/-- Two's-complement bytes of a 32-bit integer, little endian. -/
def intBytes (x : Int) : List Nat :=
  let n := (x % 4294967296).toNat
  [n % 256, n / 256 % 256, n / 65536 % 256, n / 16777216 % 256]

/-- The integer of four little-endian two's-complement bytes. -/
def bytesInt (b : List Nat) : Int :=
  let n := b.getD 0 0 + 256 * b.getD 1 0 + 65536 * b.getD 2 0 + 16777216 * b.getD 3 0
  if n < 2147483648 then (n : Int) else (n : Int) - 4294967296

/-- Exact integer arithmetic as an instance of `ValOps`: it agrees with binary32
on integers of magnitude at most `2^24` and is used to evaluate the definitions
on concrete inputs of that kind.  Division and `pow` are the integer ones,
`strtof` reads a run of decimal digits, and the object representation is the
four-byte two's-complement one. -/
def intOps : ValOps Int where
  ofInt := fun n => n
  toInt := fun v => v
  add := fun a b => a + b
  sub := fun a b => a - b
  mul := fun a b => a * b
  div := fun a b => Int.tdiv a b
  pow := fun a b => a ^ b.toNat
  neg := fun a => -a
  lt := fun a b => decide (a < b)
  le := fun a b => decide (a ≤ b)
  eq := fun a b => decide (a = b)
  raw := intBytes
  unraw := bytesInt
  strtof := fun s => ((digitsVal s 0 : Nat), digitsLen s)
  rnd := fun _ => 0

/-- The facts about binary32 the proofs use: conversions, comparisons, addition
and negation are exact on integers of magnitude at most `2^24`, and a `val`
stored in memory is read back unchanged. -/
structure ValOps.Exact {val : Type} (F : ValOps val) : Prop where
  toInt_ofInt : ∀ n : Int, -16777216 ≤ n → n ≤ 16777216 → F.toInt (F.ofInt n) = n
  eq_ofInt : ∀ a b : Int, -16777216 ≤ a → a ≤ 16777216 → -16777216 ≤ b → b ≤ 16777216 →
    F.eq (F.ofInt a) (F.ofInt b) = decide (a = b)
  lt_ofInt : ∀ a b : Int, -16777216 ≤ a → a ≤ 16777216 → -16777216 ≤ b → b ≤ 16777216 →
    F.lt (F.ofInt a) (F.ofInt b) = decide (a < b)
  le_ofInt : ∀ a b : Int, -16777216 ≤ a → a ≤ 16777216 → -16777216 ≤ b → b ≤ 16777216 →
    F.le (F.ofInt a) (F.ofInt b) = decide (a ≤ b)
  add_ofInt : ∀ a b : Int, -16777216 ≤ a → a ≤ 16777216 → -16777216 ≤ b → b ≤ 16777216 →
    -16777216 ≤ a + b → a + b ≤ 16777216 → F.add (F.ofInt a) (F.ofInt b) = F.ofInt (a + b)
  neg_ofInt : ∀ a : Int, -16777216 ≤ a → a ≤ 16777216 → F.neg (F.ofInt a) = F.ofInt (-a)
  raw_length : ∀ v : val, (F.raw v).length = sizeof_val
  unraw_raw : ∀ n : Int, -16777216 ≤ n → n ≤ 16777216 → F.unraw (F.raw (F.ofInt n)) = F.ofInt n

/-! ## Interpreter state -/

/-- The host functions of `cfunc_list`. -/
inductive cfunc where
  | fn_rnd | fn_putc | fn_plot | fn_cls | fn_exit
  deriving DecidableEq, Repr

/-- The C `struct var`.  `name` is the array `char name[8]`, read with NUL
beyond the list.  In C `v` and `fn` share storage (an anonymous union); the
model keeps them apart, so writing one leaves the other.  `fn = none` is the
null pointer of a slot that never had a function stored. -/
structure var (val : Type) where
  name : List Nat
  type : Nat
  v : val
  fn : Option cfunc

/-- The C `struct loop`; `var` is the index of the slot the C pointer addresses. -/
structure loop (val : Type) where
  var : Nat
  ptr_start : Nat
  v_end : val
  v_step : val

/-- What the program writes to standard output. -/
inductive Out (val : Type) where
  /-- The event `printf("%.14g ", v)`. -/
  | num (v : val)
  /-- The event `printf("%s", s)`. -/
  | str (s : List Nat)
  /-- The event `putchar(c)`. -/
  | chr (c : Nat)
  /-- The escape sequences written by `fn_plot`. -/
  | plot (x y color : Int)
  deriving DecidableEq

/-- The globals of `main.c`, the output written so far and the number of calls
of `rand()`.  `mem` and `vars` are total; offsets from `ZB_MEM_SIZE` and slots
from `ZB_VAR_COUNT` on lie outside the C arrays. -/
structure State (val : Type) where
  vars : Nat → var val
  mem : Nat → Nat
  cur : Nat
  end_ : Nat
  running : Bool
  loop_stack : Nat → loop val
  loop_head : Nat
  out : List (Out val)
  nrand : Nat

/-- The outcome of an operation: a result, a `longjmp` out by `error()`, the
process ended by `exit()`, the process killed by a signal (a call through a null
function pointer, an integer division that traps), or fuel exhausted. -/
inductive Res (σ α : Type) where
  | ok (a : α) (s : σ)
  | error (e : zb_err) (s : σ)
  | exit (code : Int) (s : σ)
  | crash (s : σ)
  | hang

/-- An operation on the globals. -/
def M (val α : Type) : Type := State val → Res (State val) α

/-- Sequencing: the second operation runs on the globals the first one left,
unless the first one did not return. -/
def M.bind {val α β : Type} (m : M val α) (f : α → M val β) : M val β := fun s =>
  match m s with
  | Res.ok a s1 => f a s1
  | Res.error e s1 => Res.error e s1
  | Res.exit c s1 => Res.exit c s1
  | Res.crash s1 => Res.crash s1
  | Res.hang => Res.hang

/-- Returning a value without touching the globals. -/
def M.pure {val α : Type} (a : α) : M val α := fun s => Res.ok a s

instance (val : Type) : Monad (M val) where
  pure := M.pure
  bind := M.bind

section Ops

variable {val : Type} (F : ValOps val)

/-- The C function `error`: print the message and `longjmp` to the driver. -/
def error {α : Type} (e : zb_err) : M val α := fun s => Res.error e s

/-- Fuel exhausted. -/
def hang {α : Type} : M val α := fun _ => Res.hang

/-- Read the globals. -/
def getS : M val (State val) := fun s => Res.ok s s

/-- Change the globals. -/
def modS (f : State val → State val) : M val Unit := fun s => Res.ok () (f s)

/-- The byte at offset `i` of a buffer, NUL beyond its bytes. -/
def byteAt (buf : List Nat) (i : Nat) : Nat := buf.getD i 0

/-- Conversion of an `int` to `uint8_t`. -/
def u8 (x : Int) : Nat := (x % 256).toNat

/-! ### Writing to the arena -/

/-- The statements `memcpy(mem+end, buf, len); end += len` of `put_buf`. -/
def State.append (s : State val) (buf : List Nat) : State val :=
  { s with
    mem := fun i =>
      if s.end_ ≤ i ∧ i < s.end_ + buf.length then byteAt buf (i - s.end_) else s.mem i
    end_ := s.end_ + buf.length }

/-- The C function `put_buf`: `memcpy(mem+end, buf, len); end += len`, refused
with `E_MEM_FULL` when `end + len >= ZB_MEM_SIZE`. -/
def put_buf (buf : List Nat) : M val Unit := fun s =>
  if s.end_ + buf.length ≥ ZB_MEM_SIZE then Res.error E_MEM_FULL s
  else Res.ok () (s.append buf)

/-- The globals with `cur` replaced. -/
def State.at (s : State val) (c : Nat) : State val := { s with cur := c }

/-- The C function `put_tok`; the argument is a `uint8_t`. -/
def put_tok (c : Nat) : M val Unit := put_buf [c % 256]

/-- The C function `put_lit`. -/
def put_lit (v : val) : M val Unit := do
  put_tok TOK_LIT
  let vi : Int := F.toInt v
  if F.eq v (F.ofInt vi) = true ∧ vi < 128 then
    put_buf [u8 vi]
  else if F.eq v (F.ofInt vi) = true ∧ vi < 32512 then
    put_buf [u8 (Int.lor (vi >>> 8) 0x80), u8 (Int.land vi 0xff)]
  else
    put_buf (0xff :: F.raw v)

/-- The C function `put_var`. -/
def put_var (i : Nat) : M val Unit := put_buf [TOK_VAR, i % 256]

/-- The C function `put_str`. -/
def put_str (src : List Nat) : M val Unit := do
  put_tok TOK_STR
  put_tok src.length
  put_buf src
  put_tok 0

/-- The C function `put_chunk`. -/
def put_chunk (n : Nat) : M val Unit :=
  put_buf [TOK_CHUNK, 0, (n >>> 8) % 256, (n &&& 0xff) % 256]

/-- The C function `set_chunk_len`: `mem[ptr+1] = len`. -/
def set_chunk_len (ptr len : Nat) : M val Unit :=
  modS (fun s => { s with mem := fun i => if i = ptr + 1 then len % 256 else s.mem i })

/-! ### Reading the token stream -/

/-- The C function `cur_tok` (the `assert` is compiled out). -/
def cur_tok : M val Nat := fun s => Res.ok (s.mem s.cur) s

/-- The C function `cur_is`. -/
def cur_is (tok : Nat) : M val Bool := do
  let t ← cur_tok
  return decide (t = tok)

/-- The C function `next_is`. -/
def next_is (tok : Nat) : M val Bool := do
  let t ← cur_tok
  if t = tok then
    modS (fun s => { s with cur := s.cur + 1 })
    return true
  else
    return false

/-- The C function `expect`. -/
def expect (tok : Nat) : M val Unit := do
  let b ← next_is tok
  if b = false then error E_EXPECTED else return ()

/-- The C expression `mem[cur++]`. -/
def fetch : M val Nat := fun s => Res.ok (s.mem s.cur) { s with cur := s.cur + 1 }

/-- The C function `get_lit`. -/
def get_lit : M val val := do
  expect TOK_LIT
  let b0 ← fetch
  if b0 = 0xff then
    let s ← getS
    let v := F.unraw ((List.range sizeof_val).map (fun k => s.mem (s.cur + k)))
    modS (fun s => { s with cur := s.cur + sizeof_val })
    return v
  else if b0 &&& 0x80 ≠ 0 then
    let b1 ← fetch
    return F.ofInt ((((b0 &&& 0x7f) <<< 8) ||| b1 : Nat) : Int)
  else
    return F.ofInt (b0 : Int)

/-- The C function `get_var_idx`. -/
def get_var_idx : M val Nat := do
  expect TOK_VAR
  fetch

/-- The C function `get_str_idx`. -/
def get_str_idx : M val Nat := do
  expect TOK_STR
  let s ← getS
  let len := s.mem s.cur
  let ptr := s.cur + 1
  modS (fun s => { s with cur := s.cur + (len + 2) })
  return ptr

/-- The C function `get_chunk`; the result is the pair `(*len, *line)`. -/
def get_chunk : M val (Nat × Nat) := do
  expect TOK_CHUNK
  let s ← getS
  let len := s.mem s.cur
  let line := (s.mem (s.cur + 1) <<< 8) + s.mem (s.cur + 2)
  modS (fun s => { s with cur := s.cur + 3 })
  return (len, line)

/-- The C function `get_tok`.  Its callers `E`, `fn_if` and `fn_else` use only
the returned token, so the values stored through `v` and `i` are left out. -/
def get_tok : M val Nat := do
  let tok ← cur_tok
  if (← cur_is TOK_LIT) then
    let _ ← get_lit F
  else if (← cur_is TOK_STR) then
    let _ ← get_str_idx
  else if (← cur_is TOK_VAR) then
    let _ ← get_var_idx
  else if (← cur_is TOK_CHUNK) then
    let _ ← get_chunk
  else
    modS (fun s => { s with cur := s.cur + 1 })
  return tok

/-- The NUL-terminated string at `mem + ptr`, as `printf("%s")` reads it. -/
def cstr (mem : Nat → Nat) (ptr : Nat) : Nat → List Nat
  | 0 => []
  | n + 1 => if mem ptr = 0 then [] else mem ptr :: cstr mem (ptr + 1) n

/-- The C function `get_str`. -/
def get_str : M val (List Nat) := do
  let ptr ← get_str_idx
  let s ← getS
  return cstr s.mem ptr ZB_MEM_SIZE

/-- Append to standard output. -/
def emit (o : Out val) : M val Unit := modS (fun s => { s with out := s.out ++ [o] })

/-! ### Expressions -/

/-- A `val` used as a C condition: `v != 0`. -/
def truthy (v : val) : Bool := !(F.eq v (F.ofInt 0))

/-- Conversion of a C truth value (`0` or `1`) to `val`. -/
def ofBool (b : Bool) : val := F.ofInt (if b then 1 else 0)

/-- A value brought into the range of the 32-bit `int`, as two's-complement
arithmetic does. -/
def wrap32 (x : Int) : Int := (x + 2147483648) % 4294967296 - 2147483648

/-- What the `switch` of `E` does with an operator other than `TOK_ASSIGN`: a case
sets `v`, the integer division of `%` traps and the signal kills the process, or
no case applies and `default` is taken. -/
inductive Bin (val : Type) where
  | val (v : val)
  | trap
  | dflt

/-- The cases of the `switch` in `E` other than `TOK_ASSIGN`.  `i1` and `i2` are
the operands converted to `int`.  The shifts are those of the 32-bit `int` of the
host: the count is taken modulo 32, `<<` keeps the low 32 bits and `>>` keeps the
sign.  `%` is the truncating remainder, which traps when the divisor is zero and
when `INT_MIN` is divided by `-1`. -/
def binop (tok : Nat) (v1 v2 : val) : Bin val :=
  let i1 : Int := F.toInt v1
  let i2 : Int := F.toInt v2
  if tok = TOK_PLUS then Bin.val (F.add v1 v2)
  else if tok = TOK_MINUS then Bin.val (F.sub v1 v2)
  else if tok = TOK_MUL then Bin.val (F.mul v1 v2)
  else if tok = TOK_LT then Bin.val (ofBool F (F.lt v1 v2))
  else if tok = TOK_LE then Bin.val (ofBool F (F.le v1 v2))
  else if tok = TOK_EQ then Bin.val (ofBool F (F.eq v1 v2))
  else if tok = TOK_NE then Bin.val (ofBool F (!(F.eq v1 v2)))
  else if tok = TOK_GE then Bin.val (ofBool F (F.le v2 v1))
  else if tok = TOK_GT then Bin.val (ofBool F (F.lt v2 v1))
  else if tok = TOK_AND then Bin.val (ofBool F (truthy F v1 && truthy F v2))
  else if tok = TOK_OR then Bin.val (ofBool F (truthy F v1 || truthy F v2))
  else if tok = TOK_BAND then Bin.val (F.ofInt (Int.land i1 i2))
  else if tok = TOK_BOR then Bin.val (F.ofInt (Int.lor i1 i2))
  else if tok = TOK_BXOR then Bin.val (F.ofInt (Int.xor i1 i2))
  else if tok = TOK_RSH then Bin.val (F.ofInt (i1 >>> (i2 % 32).toNat))
  else if tok = TOK_LSH then Bin.val (F.ofInt (wrap32 (i1 * 2 ^ (i2 % 32).toNat)))
  else if tok = TOK_POW then Bin.val (F.pow v1 v2)
  else if tok = TOK_DIV then Bin.val (F.div v1 v2)
  else if tok = TOK_MOD then
    if i2 = 0 ∨ (i1 = -2147483648 ∧ i2 = -1) then Bin.trap
    else Bin.val (F.ofInt (Int.tmod i1 i2))
  else Bin.dflt

/-- The value a case of the `switch` has set, `d` when none has. -/
def Bin.getD {val : Type} (b : Bin val) (d : val) : val :=
  match b with
  | Bin.val v => v
  | _ => d

/-- Whether a case of the `switch` has set a value. -/
def Bin.isVal {val : Type} : Bin val → Bool
  | Bin.val _ => true
  | _ => false

/-- The globals after `var->v = v2; var->type = VAR_TYPE_VAL` on slot `i`. -/
def State.setVar (s : State val) (i : Nat) (v2 : val) : State val :=
  { s with vars := fun j =>
      if j = i then { s.vars j with v := v2, type := VAR_TYPE_VAL } else s.vars j }

/-- The assignment `var->v = v2; var->type = VAR_TYPE_VAL` on slot `i`. -/
def assign (i : Nat) (v2 : val) : M val Unit := modS (fun s => s.setVar i v2)

/-- The C function `get_var`; `call` performs `var->fn()`.  The result is the
value together with the index stored through `i`. -/
def get_var (call : Option cfunc → M val val) : M val (val × Nat) := do
  let i ← get_var_idx
  let s ← getS
  let var := s.vars i
  if var.type = VAR_TYPE_VAL then
    return (var.v, i)
  else if var.type = VAR_TYPE_CFUNC then
    expect TOK_OPEN
    let v ← call var.fn
    expect TOK_CLOSE
    return (v, i)
  else
    return (F.ofInt 0, i)

mutual

/-- The C function `E`.  The first argument is the fuel. -/
def E : Nat → Nat → M val val
  | 0, _ => hang
  | n + 1, p => do
    let (v, lvalue) ← P n ZB_VAR_COUNT
    E_loop n p lvalue v

/-- The `while` loop of `E`, with `lvalue` and `v` as they stand at the loop
test. -/
def E_loop : Nat → Nat → Nat → val → M val val
  | 0, _, _, _ => hang
  | n + 1, p, lvalue, v => do
    let t ← cur_tok
    if t < BINOP_COUNT ∧ binop_prec t ≥ p then
      let prec := binop_prec t
      let tok ← get_tok F
      let prec := if tok ≠ TOK_POW ∧ tok ≠ TOK_ASSIGN then prec + 1 else prec
      let v1 := v
      let v2 ← E n prec
      if tok = TOK_ASSIGN then
        if lvalue = ZB_VAR_COUNT then
          error E_NOT_LVALUE
        else
          assign lvalue v2
          E_loop n p lvalue v2
      else
        match binop F tok v1 v2 with
        | Bin.val v => E_loop n p lvalue v
        | Bin.trap => fun s => Res.crash s
        | Bin.dflt => error E_ASSERT
    else
      return v

/-- The C function `P`; the second argument is `*i` on entry and the result
carries `*i` on return. -/
def P : Nat → Nat → M val (val × Nat)
  | 0, _ => hang
  | n + 1, i => do
    if (← cur_is TOK_LIT) then
      let v ← get_lit F
      return (v, i)
    else if (← cur_is TOK_VAR) then
      get_var F (fn_call n)
    else if (← next_is TOK_MINUS) then
      let v ← E n 11
      return (F.neg v, i)
    else if (← next_is TOK_NOT) then
      let v ← E n 11
      return (ofBool F (!(truthy F v)), i)
    else if (← next_is TOK_BNOT) then
      let v ← E n 11
      return (F.ofInt (-(F.toInt v) - 1), i)
    else if (← next_is TOK_OPEN) then
      let v ← E n 0
      expect TOK_CLOSE
      return (v, i)
    else
      error E_EXPECTED

/-- The call `var->fn()` of `get_var`, with the bodies of `fn_rnd`, `fn_putc`,
`fn_plot`, `fn_cls` and `fn_exit`. -/
def fn_call : Nat → Option cfunc → M val val
  | 0, _ => hang
  | _ + 1, none => fun s => Res.crash s
  | _ + 1, some cfunc.fn_rnd => do
    let s ← getS
    modS (fun s => { s with nrand := s.nrand + 1 })
    return F.rnd s.nrand
  | n + 1, some cfunc.fn_putc => do
    let v ← E n 0
    let c := u8 (F.toInt v)
    emit (Out.chr c)
    return F.ofInt c
  | n + 1, some cfunc.fn_plot => do
    let x ← E n 0
    expect TOK_COMMA
    let y ← E n 0
    expect TOK_COMMA
    let color ← E n 0
    emit (Out.plot (F.toInt x) (F.toInt y) (F.toInt color))
    return F.ofInt 0
  | _ + 1, some cfunc.fn_cls => return F.ofInt 0
  | n + 1, some cfunc.fn_exit => do
    let v ← E n 0
    fun s => Res.exit (F.toInt v) s

end

/-- The C function `expr`. -/
def expr (n : Nat) : M val val := E F n 0

/-! ### Statements -/

/-- The C function `fn_print`. -/
def fn_print : Nat → M val val
  | 0 => hang
  | n + 1 => do
    if (← cur_is TOK_STR) then
      let str ← get_str
      emit (Out.str str)
    else
      let v ← expr F n
      emit (Out.num v)
    if (← next_is TOK_SEMI) then
      fn_print n
    else
      emit (Out.chr 10)
      return F.ofInt 0

/-- The `for(;;)` loop of `find_line`; `save` is the saved `cur`. -/
def find_line_loop (line save : Nat) : Nat → M val Nat
  | 0 => hang
  | n + 1 => do
    let ptr := (← getS).cur
    let (len, line2) ← get_chunk
    if len = 0 then
      error E_ASSERT
    else if line = line2 then
      modS (fun s => { s with cur := save })
      return ptr
    else
      modS (fun s => { s with cur := ptr + len })
      find_line_loop line save n

/-- The C function `find_line`.  The statements after the `for(;;)`, among them
`error(E_LINE_NOT_FOUND, NULL)`, cannot be reached: the loop has no `break`. -/
def find_line (n line : Nat) : M val Nat := do
  let save := (← getS).cur
  modS (fun s => { s with cur := 0 })
  find_line_loop line save n

/-- Conversion of a `val` to `idx` (`uint32_t`), as in `idx line = get_lit()`. -/
def toIdx (v : val) : Nat := (F.toInt v % 4294967296).toNat

/-- The C function `fn_goto`. -/
def fn_goto (n : Nat) : M val Unit := do
  let line := toIdx F (← get_lit F)
  let ptr ← find_line n line
  modS (fun s => { s with cur := ptr })

/-- Update of the frame `loop_stack[h]`. -/
def setLoop (h : Nat) (f : loop val → loop val) : M val Unit :=
  modS (fun s =>
    { s with loop_stack := fun j => if j = h then f (s.loop_stack j) else s.loop_stack j })

/-- The C function `fn_for`. -/
def fn_for (n : Nat) : M val Unit := do
  let h := (← getS).loop_head
  if h = ZB_MAX_DEPTH then
    error E_NEXT_WITHOUT_FOR
  else
    modS (fun s => { s with loop_head := s.loop_head + 1 })
    let i ← get_var_idx
    setLoop h (fun l => { l with var := i })
    expect TOK_ASSIGN
    let v ← expr F n
    modS (fun s =>
      { s with vars := fun j => if j = i then { s.vars j with v := v } else s.vars j })
    expect TOK_TO
    let v_end ← expr F n
    setLoop h (fun l => { l with v_end := v_end })
    let v_step ← (do if (← next_is TOK_STEP) then expr F n else pure (F.ofInt 1))
    setLoop h (fun l => { l with v_step := v_step })
    let ptr := (← getS).cur
    setLoop h (fun l => { l with ptr_start := ptr })

/-- The C function `fn_next`. -/
def fn_next : M val Unit := do
  let s ← getS
  if s.loop_head = 0 then
    error E_NEXT_WITHOUT_FOR
  else
    let l := s.loop_stack (s.loop_head - 1)
    let v := F.add (s.vars l.var).v l.v_step
    modS (fun s =>
      { s with vars := fun j => if j = l.var then { s.vars j with v := v } else s.vars j })
    if (F.lt (F.ofInt 0) l.v_step = true ∧ F.le v l.v_end = true) ∨
       (F.lt l.v_step (F.ofInt 0) = true ∧ F.le l.v_end v = true) then
      modS (fun s => { s with cur := l.ptr_start })
    else
      modS (fun s => { s with loop_head := s.loop_head - 1 })

/-- The token-skipping `while` loops of `fn_if` and `fn_else`: call `get_tok`
until the current token is one of `stops`. -/
def skip_until (stops : List Nat) : Nat → M val Unit
  | 0 => hang
  | n + 1 => do
    let t ← cur_tok
    if t ∈ stops then
      return ()
    else
      let _ ← get_tok F
      skip_until stops n

/-- The C function `fn_else`. -/
def fn_else (n : Nat) : M val Unit := skip_until F [TOK_EOF, TOK_COLON] n

mutual

/-- The C function `run_chunk`.  Each case of the chain yields `some r` when the
function returns `r` (`return true`, or `break` followed by `return false`) and
`none` when control reaches `while(!once)`. -/
def run_chunk : Nat → Bool → M val Bool
  | 0, _ => hang
  | n + 1, once => do
    let r : Option Bool ← (do
      if (← cur_is TOK_CHUNK) then
        let _ ← get_chunk
        pure none
      else if (← next_is TOK_PRINT) then
        let _ ← fn_print F n
        pure none
      else if (← next_is TOK_RUN) then
        fn_run n
        pure none
      else if (← next_is TOK_GOTO) then
        fn_goto F n
        pure none
      else if (← next_is TOK_GOSUB) then
        fn_gosub n
        pure none
      else if (← next_is TOK_RETURN) then
        pure (some true)
      else if (← next_is TOK_FOR) then
        fn_for F n
        pure none
      else if (← next_is TOK_NEXT) then
        fn_next F
        pure none
      else if (← next_is TOK_IF) then
        fn_if n
        pure none
      else if (← next_is TOK_ELSE) then
        fn_else F n
        pure none
      else if (← next_is TOK_NEXT) then
        pure (some true)
      else if (← next_is TOK_COLON) then
        pure none
      else if (← next_is TOK_END) then
        modS (fun s => { s with running := false })
        pure none
      else if (← next_is TOK_EOF) then
        pure (some false)
      else
        let _ ← expr F n
        pure none)
    match r with
    | some b => return b
    | none => if once then return false else run_chunk n once

/-- The `while(running)` loop of `run`. -/
def run_loop : Nat → M val Unit
  | 0 => hang
  | n + 1 => do
    if (← getS).running then
      let ret ← run_chunk n false
      if ret then return () else run_loop n
    else
      return ()

/-- The C function `run`. -/
def run : Nat → Nat → M val Unit
  | 0, _ => hang
  | n + 1, ptr => do
    let save := (← getS).cur
    modS (fun s => { s with cur := ptr })
    run_loop n
    modS (fun s => { s with cur := save })

/-- The C function `fn_run`. -/
def fn_run : Nat → M val Unit
  | 0 => hang
  | n + 1 => do
    if (← getS).running then
      error E_NESTED_RUN
    else
      modS (fun s => { s with running := true })
      modS (fun s => { s with loop_head := 0 })
      run n 0
      modS (fun s => { s with running := false })

/-- The C function `fn_gosub`. -/
def fn_gosub : Nat → M val Unit
  | 0 => hang
  | n + 1 => do
    let line := toIdx F (← get_lit F)
    let ptr ← find_line n line
    run n ptr

/-- The C function `fn_if`; the value returned by `run_chunk(true)` is dropped. -/
def fn_if : Nat → M val Unit
  | 0 => hang
  | n + 1 => do
    let v ← expr F n
    expect TOK_THEN
    if truthy F v then
      let _ ← run_chunk n true
    else
      skip_until F [TOK_EOF, TOK_ELSE, TOK_COLON] n
      if (← next_is TOK_ELSE) then pure () else pure ()

end

/-! ### The tokenizer -/

def is_digit (c : Nat) : Bool := decide (48 ≤ c ∧ c ≤ 57)

def is_alpha (c : Nat) : Bool := decide ((65 ≤ c ∧ c ≤ 90) ∨ (97 ≤ c ∧ c ≤ 122))

def is_alnum (c : Nat) : Bool := is_alpha c || is_digit c

/-- The C function `match`: `p` and `s` are buffers with the offsets `pi` and
`si` the two pointers have reached, the last argument is `len`. -/
def match_ (p s : List Nat) : Nat → Nat → Nat → Bool
  | pi, _, 0 => decide (byteAt p pi = 0)
  | pi, si, len + 1 =>
    if byteAt p pi ≠ byteAt s si then false else match_ p s (pi + 1) (si + 1) len

/-- The C statement `while(*p++);` on `tokstr`: the offset just past the next
NUL at or after `pi`.  The first argument bounds the scan. -/
def skip_name : Nat → Nat → Nat
  | 0, pi => pi
  | k + 1, pi => if byteAt tokstr pi = 0 then pi + 1 else skip_name k (pi + 1)

/-- The `for` loop of `find_tok`: `k` tokens are left to try, `i` is the current
token and `pi` the offset of its lexeme in `tokstr`. -/
def find_tok_loop (name : List Nat) (ni len : Nat) : Nat → Nat → Nat → Nat
  | 0, _, _ => TOK_NONE
  | k + 1, i, pi =>
    if match_ tokstr name pi ni len then i
    else find_tok_loop name ni len k (i + 1) (skip_name tokstr.length pi)

/-- The C function `find_tok`; `name` is a buffer and `ni` the offset in it. -/
def find_tok (name : List Nat) (ni len : Nat) : Nat :=
  find_tok_loop name ni len NUM_TOKENS 0 0

/-- The `for` loop of `find_var`: `k` slots are left, `i` is the current slot.
The result is `Sum.inl i` for `return i` and `Sum.inr ifree` at the end of the
loop. -/
def find_var_loop (vars : Nat → var val) (name : List Nat) (ni len : Nat) :
    Nat → Nat → Nat → Sum Nat Nat
  | 0, _, ifree => Sum.inr ifree
  | k + 1, i, ifree =>
    if match_ (vars i).name name 0 ni len then Sum.inl i
    else
      find_var_loop vars name ni len k (i + 1)
        (if ifree = ZB_VAR_COUNT ∧ byteAt (vars i).name 0 = 0 then i else ifree)

/-- The first `len` bytes `strncpy` writes: the bytes of `src` from `si` on up
to its NUL, then NUL padding. -/
def strncpy_bytes (src : List Nat) : Nat → Nat → List Nat
  | _, 0 => []
  | si, k + 1 =>
    if byteAt src si = 0 then List.replicate (k + 1) 0
    else byteAt src si :: strncpy_bytes src (si + 1) k

/-- The C function `find_var`. -/
def find_var (name : List Nat) (ni len : Nat) : M val Nat := fun s =>
  let len := if len > ZB_VAR_NAME_LEN then ZB_VAR_NAME_LEN else len
  match find_var_loop s.vars name ni len ZB_VAR_COUNT 0 ZB_VAR_COUNT with
  | Sum.inl i => Res.ok i s
  | Sum.inr ifree =>
    if ifree = ZB_VAR_COUNT then Res.error E_VAR_MEM_FULL s
    else Res.ok ifree
      { s with vars := fun j =>
          if j = ifree then
            { s.vars j with
              name := strncpy_bytes name ni len ++ (s.vars j).name.drop len }
          else s.vars j }

/-- The C function `match_longest_tok`: `some` of the new value of `*pp` for
`true`, `none` for `false`.  The last argument is the loop variable `i`. -/
def match_longest_tok (line : List Nat) (p : Nat) : Nat → M val (Option Nat)
  | 0 => pure none
  | i + 1 => do
    let tok := find_tok line p (i + 1)
    if tok ≠ TOK_NONE then
      put_tok tok
      return some (p + i)
    else
      match_longest_tok line p i

/-- The offset of the first byte at or after `p` that fails `f`; the first
argument bounds the scan. -/
def scan (f : Nat → Bool) (line : List Nat) : Nat → Nat → Nat
  | 0, p => p
  | k + 1, p => if f (byteAt line p) then scan f line k (p + 1) else p

/-- A `char` converted to `val`; plain `char` is signed. -/
def charVal (c : Nat) : Int := if c < 128 then (c : Int) else (c : Int) - 256

/-- The `for(;;)` loop of `lex` with `p` an offset into `line`.  In every branch
the offset passed on is the one after the `p++` that ends the loop body. -/
def lex_loop (line : List Nat) : Nat → Nat → M val Unit
  | 0, _ => hang
  | n + 1, p => do
    let p := scan (fun c => decide (c = 32 ∨ c = 9 ∨ c = 13)) line (line.length + 1) p
    let c := byteAt line p
    if c = 0 then
      put_tok TOK_EOF
    else if is_digit c = true ∨ c = 46 then
      let (v, k) := F.strtof (line.drop p)
      put_lit F v
      lex_loop line n (p + k)
    else if c = 34 then
      let ps := p + 1
      let pe := scan (fun c => decide (c ≠ 34 ∧ c ≠ 0)) line (line.length + 1) ps
      if byteAt line pe = 0 then
        error E_UNTERM_STR
      else
        put_str ((line.drop ps).take (pe - ps))
        lex_loop line n (pe + 1)
    else if c = 39 then
      put_lit F (F.ofInt (charVal (byteAt line (p + 1))))
      if byteAt line (p + 2) ≠ 39 then
        error E_UNTERM_STR
      else
        lex_loop line n (p + 3)
    else
      match (← match_longest_tok line p 6) with
      | some p1 => lex_loop line n (p1 + 1)
      | none =>
        if is_alpha c then
          let ps := p
          let pe := scan is_alnum line (line.length + 1) p
          let i ← find_var line ps (pe - ps)
          put_var i
          lex_loop line n pe
        else
          error E_SYNTAX_ERROR

/-- The C function `lex`. -/
def lex (n : Nat) (line : List Nat) : M val Unit := lex_loop F line n 0

/-- The library function `atoi` followed by the conversion to `idx`: white
space, an optional sign and a run of decimal digits. -/
def atoi (buf : List Nat) : Nat :=
  let p := scan (fun c => decide (c = 32 ∨ (9 ≤ c ∧ c ≤ 13))) buf (buf.length + 1) 0
  let c := byteAt buf p
  let q := if c = 43 ∨ c = 45 then p + 1 else p
  let n : Int := (digitsVal (buf.drop q) 0 : Nat)
  ((if c = 45 then -n else n) % 4294967296).toNat

/-- The C function `handle_line`. -/
def handle_line (n : Nat) (buf : List Nat) : M val Unit := do
  let save := (← getS).end_
  let linenum := atoi buf
  if linenum ≠ 0 then put_chunk linenum else pure ()
  lex F n buf
  if linenum ≠ 0 then
    let e := (← getS).end_
    set_chunk_len save (e - save)
  else
    modS (fun s => { s with cur := save })
    let _ ← run_chunk F n false
    modS (fun s => { s with end_ := save })
    modS (fun s => { s with cur := save })

/-! ### The driver -/

/-- The C function `zb_register_cfunc`. -/
def zb_register_cfunc (name : String) (fn : cfunc) : M val Unit := do
  let i ← find_var (bytes name) 0 (bytes name).length
  modS (fun s =>
    { s with vars := fun j =>
        if j = i then { s.vars j with type := VAR_TYPE_CFUNC, fn := some fn } else s.vars j })

/-- The C function `zb_register_cfuncs` applied to `cfunc_list`. -/
def zb_register_cfuncs : M val Unit := do
  zb_register_cfunc "rnd" cfunc.fn_rnd
  zb_register_cfunc "putc" cfunc.fn_putc
  zb_register_cfunc "plot" cfunc.fn_plot
  zb_register_cfunc "cls" cfunc.fn_cls
  zb_register_cfunc "exit" cfunc.fn_exit

/-- The globals as the C start-up code leaves them: all zero. -/
def zero_state : State val where
  vars := fun _ => { name := [], type := 0, v := F.ofInt 0, fn := none }
  mem := fun _ => 0
  cur := 0
  end_ := 0
  running := false
  loop_stack := fun _ => { var := 0, ptr_start := 0, v_end := F.ofInt 0, v_step := F.ofInt 0 }
  loop_head := 0
  out := []
  nrand := 0

/-- The state in which `main` enters its loop: the host functions registered. -/
def init_state : State val :=
  match zb_register_cfuncs (zero_state F) with
  | Res.ok _ s => s
  | _ => zero_state F

/-- The array `buf` after `fgets` has read `line` and its newline has been
replaced by NUL; the bytes behind are those of earlier lines. -/
def fgets_buf (buf line : List Nat) : List Nat :=
  line ++ [0, 0] ++ buf.drop (line.length + 2)

/-- One turn of the loop of `main`: `setjmp`, `handle_line`, and
`running = false` when `error()` jumped back. -/
def main_step (n : Nat) (buf : List Nat) : M val Unit := fun s =>
  match handle_line F n buf s with
  | Res.error _ s1 => Res.ok () { s1 with running := false }
  | r => r

/-- The loop of `main` over the lines read from standard input (each shorter
than the 119 bytes `fgets` takes at once), starting with `buf` in the array. -/
def main_loop (n : Nat) : List (List Nat) → List Nat → M val Unit
  | [], _ => pure ()
  | line :: rest, buf => do
    main_step F n (fgets_buf buf line)
    main_loop n rest (fgets_buf buf line)

/-- The program run on the given input lines. -/
def main (n : Nat) (lines : List String) : Res (State val) Unit :=
  main_loop F n (lines.map bytes) [] (init_state F)

end Ops

/-! ## Vocabulary of the statements -/

/-- The error kind of an outcome, if it is a `longjmp` out by `error()`. -/
def Res.err {σ α : Type} : Res σ α → Option zb_err
  | Res.error e _ => some e
  | _ => none

/-- The globals an outcome leaves, `d` for `hang`. -/
def Res.state {σ α : Type} (d : σ) : Res σ α → σ
  | Res.ok _ s => s
  | Res.error _ s => s
  | Res.exit _ s => s
  | Res.crash s => s
  | Res.hang => d

/-- Well-formed chunks lie back to back in `mem` from offset `p` on: `cs` lists
for each the line number in its header and its length byte, which is not zero
and is the distance to the next chunk. -/
def chunksAt (mem : Nat → Nat) : Nat → List (Nat × Nat) → Bool
  | _, [] => true
  | p, (line, len) :: cs =>
    decide (mem p = TOK_CHUNK) && decide (mem (p + 1) = len) && decide (len ≠ 0) &&
    decide ((mem (p + 2) <<< 8) + mem (p + 3) = line) && chunksAt mem (p + len) cs

/-- The start offset of the first chunk of `cs` (laid out from `p` on) whose
line number is `line`. -/
def firstChunk (line : Nat) : Nat → List (Nat × Nat) → Option Nat
  | _, [] => none
  | p, (l, len) :: cs => if line = l then some p else firstChunk line (p + len) cs

/-- The bytes `l` lie in `mem` from offset `p` on. -/
def holdsAt (mem : Nat → Nat) : Nat → List Nat → Bool
  | _, [] => true
  | p, b :: l => decide (mem p = b) && holdsAt mem (p + 1) l

/-- The payload `put_lit` writes for the integer `n ≥ 0`. -/
def litBytes {val : Type} (F : ValOps val) (n : Nat) : List Nat :=
  if n < 128 then [n]
  else if n < 32512 then [n / 256 + 128, n % 256]
  else 0xff :: F.raw (F.ofInt (n : Int))

/-- Infix expressions over integer literals and binary operators, as parse
trees; `op` is the token of the operator. -/
inductive Expr where
  | lit (n : Nat)
  | bin (op : Nat) (l r : Expr)
  deriving DecidableEq, Repr

/-- The token stream of an expression: its operands and operators from left to
right, without parentheses. -/
def Expr.toks {val : Type} (F : ValOps val) : Expr → List Nat
  | Expr.lit n => TOK_LIT :: litBytes F n
  | Expr.bin op l r => Expr.toks F l ++ [op] ++ Expr.toks F r

/-- The value of a parse tree: every operator applied to the values of its two
subtrees by the `switch` of `E`; a node at which the `switch` sets no value
counts as zero (such trees are excluded by `Expr.safe`). -/
def Expr.eval {val : Type} (F : ValOps val) : Expr → val
  | Expr.lit n => F.ofInt (n : Int)
  | Expr.bin op l r => (binop F op (Expr.eval F l) (Expr.eval F r)).getD (F.ofInt 0)

/-- No operator of the tree traps on the values of its operands: no `%` has a
right operand whose `int` value is zero (or `-1` under `INT_MIN`). -/
def Expr.safe {val : Type} (F : ValOps val) : Expr → Bool
  | Expr.lit _ => true
  | Expr.bin op l r =>
    Expr.safe F l && Expr.safe F r && (binop F op (Expr.eval F l) (Expr.eval F r)).isVal

/-- The level of the operator at the root of a tree; a literal ranks above all
operators. -/
def Expr.level : Expr → Nat
  | Expr.lit _ => 13
  | Expr.bin op _ _ => binop_prec op

/-- The grouping the precedence table prescribes: the operators are binary
operators other than `=`, literals are at most `2^24`, and at every node
* the left subtree has a level at least that of the node (an operator of the
  same level to the left is applied first: left to right), except under `**`,
  whose left operand is a literal;
* the right subtree has a higher level than the node, except under `**`, whose
  right operand may be another `**` (right to left). -/
def Expr.grouped : Expr → Bool
  | Expr.lit n => decide (n ≤ 16777216)
  | Expr.bin op l r =>
    decide (0 < op ∧ op < BINOP_COUNT) && Expr.grouped l && Expr.grouped r &&
    (if op = TOK_POW then decide (binop_prec op < l.level) && decide (binop_prec op ≤ r.level)
     else decide (binop_prec op ≤ l.level) && decide (binop_prec op < r.level))

/-- The lowest level of a following operator that a tree's last operand would
still take as its own: one above the level of the root, the level itself under
`**`, and 13 (above every operator) for a literal. -/
def Expr.bound : Expr → Nat
  | Expr.lit _ => 13
  | Expr.bin op _ _ => if op = TOK_POW then binop_prec op else binop_prec op + 1

/-- Fuel that `E` uses up on the left spine of a tree. -/
def Expr.cost : Expr → Nat
  | Expr.lit _ => 0
  | Expr.bin _ l _ => Expr.cost l + 1

/-- Fuel that suffices for the calls of `E` below the left spine of a tree. -/
def Expr.need : Expr → Nat
  | Expr.lit _ => 1
  | Expr.bin _ l r => max (Expr.need l) (Expr.cost r + 1 + Expr.need r)

/-- What evaluating an expression leaves alone: the arena, `end`, `running`,
the loop stack, and of every slot the name and the stored function. -/
def Frame {val : Type} (s s1 : State val) : Prop :=
  s1.mem = s.mem ∧ s1.end_ = s.end_ ∧ s1.running = s.running ∧
  s1.loop_stack = s.loop_stack ∧ s1.loop_head = s.loop_head ∧
  ∀ j, (s1.vars j).name = (s.vars j).name ∧ (s1.vars j).fn = (s.vars j).fn

/-- An operation that, when it returns, has kept the frame. -/
def Keeps {val α : Type} (m : M val α) : Prop :=
  ∀ s a s1, m s = Res.ok a s1 → Frame s s1

/-- The left sides of an assignment that are not a plain variable: a
parenthesised variable `(a)`, an integer literal, a negated variable `-a`. -/
inductive Lhs where
  | paren (a : Nat)
  | lit (n : Nat)
  | neg (a : Nat)
  deriving DecidableEq, Repr

/-- The token stream of such a left side. -/
def Lhs.toks {val : Type} (F : ValOps val) : Lhs → List Nat
  | Lhs.paren a => [TOK_OPEN, TOK_VAR, a, TOK_CLOSE]
  | Lhs.lit n => TOK_LIT :: litBytes F n
  | Lhs.neg a => [TOK_MINUS, TOK_VAR, a]

/-- The left side is well formed in the state: its variable is a value-typed
slot, its literal at most `2^24`. -/
def Lhs.ok {val : Type} (s : State val) : Lhs → Prop
  | Lhs.paren a => (s.vars a).type = VAR_TYPE_VAL
  | Lhs.lit n => n ≤ 16777216
  | Lhs.neg a => (s.vars a).type = VAR_TYPE_VAL

/-- The globals with `mem` holding the bytes `l` (NUL behind them) and `cur`
at their start. -/
def State.load {val : Type} (s : State val) (l : List Nat) : State val :=
  { s with mem := byteAt l, cur := 0 }

/-- The stream of `a = b = 3` with `a` in slot 5 and `b` in slot 6. -/
def chain_state : State Int :=
  (zero_state intOps).load
    [TOK_VAR, 5, TOK_ASSIGN, TOK_VAR, 6, TOK_ASSIGN, TOK_LIT, 3, TOK_EOF]

/-- The globals after the one input line `a = 1`. -/
def state_a1 : State Int := (main intOps 50 ["a = 1"]).state (zero_state intOps)

/-- A chunk store for examples: three stored lines, two of them numbered 10. -/
def store3 : State Int :=
  (main intOps 50 ["10 print 1", "20 print 2", "10 print 3"]).state (zero_state intOps)

/-- An outcome is a normal return. -/
def Res.isOk {σ α : Type} : Res σ α → Bool
  | Res.ok _ _ => true
  | _ => false

/-- The globals after the given input lines. -/
def after (lines : List String) : State Int := (main intOps 50 lines).state (zero_state intOps)

/-- The stored program of spec scenario 4. -/
def store4 : State Int :=
  after ["10 gosub 100", "20 print 2", "30 end", "100 print 1", "110 return"]

/-- The program of spec scenario 4 with the run under way and `cur` at the
`gosub` token of line 10 (behind the chunk header and the literal 10). -/
def gosub_state : State Int := { store4 with running := true, cur := 6 }

/-- A token of the stream together with its payload: an integer literal, a
variable with its slot index, a string with its bytes, or a tag without
payload. -/
inductive Tok where
  | lit (n : Nat)
  | var (i : Nat)
  | str (b : List Nat)
  | op (t : Nat)
  deriving DecidableEq, Repr

/-- The bytes of a token in the arena, as `put_lit`, `put_var`, `put_str` and
`put_tok` write them. -/
def Tok.bytes {val : Type} (F : ValOps val) : Tok → List Nat
  | Tok.lit n => TOK_LIT :: litBytes F n
  | Tok.var i => [TOK_VAR, i]
  | Tok.str b => TOK_STR :: b.length :: (b ++ [0])
  | Tok.op t => [t]

/-- The tag of a token: its first byte. -/
def Tok.tag : Tok → Nat
  | Tok.lit _ => TOK_LIT
  | Tok.var _ => TOK_VAR
  | Tok.str _ => TOK_STR
  | Tok.op t => t

/-- A token that may occur inside a simple statement: a literal of at most
`2^24`, a variable, a string, or a tag without payload other than `else`, `:`
and `TOK_EOF`. -/
def Tok.plain : Tok → Bool
  | Tok.lit n => decide (n ≤ 16777216)
  | Tok.var _ => true
  | Tok.str _ => true
  | Tok.op t => decide (t ≠ TOK_ELSE ∧ t ≠ TOK_COLON ∧ t ≠ TOK_EOF ∧
      t ≠ TOK_LIT ∧ t ≠ TOK_VAR ∧ t ≠ TOK_STR ∧ t ≠ TOK_CHUNK)

/-- The bytes of a sequence of tokens. -/
def toksBytes {val : Type} (F : ValOps val) (l : List Tok) : List Nat :=
  (l.map (Tok.bytes F)).flatten

/-- The value of an outcome that is a normal return. -/
def Res.val {σ α : Type} : Res σ α → Option α
  | Res.ok a _ => some a
  | _ => none

/-- The stream of `if c then print 22 else print 2`. -/
def if_state (c : Nat) : State Int :=
  (zero_state intOps).load [TOK_IF, TOK_LIT, c, TOK_THEN, TOK_PRINT, TOK_LIT, 22, TOK_ELSE,
    TOK_PRINT, TOK_LIT, 2, TOK_EOF]

/-- The globals after `print 22` of that stream has been dispatched. -/
def if_printed : State Int :=
  (run_chunk intOps 5 true ((if_state 1).at 4)).state (zero_state intOps)

/-- The `len` bytes of the buffer `line` from offset `ni` on: the name that
`find_var` is called with. -/
def nameAt (line : List Nat) (ni len : Nat) : List Nat :=
  (List.range len).map (fun k => byteAt line (ni + k))

/-- No stored name holds a NUL byte: the list of a slot is its name up to the
terminating NUL, and the free slots are those with the empty list. -/
def TableOk {val : Type} (vars : Nat → var val) : Prop :=
  ∀ j, j < ZB_VAR_COUNT → ∀ b ∈ (vars j).name, b ≠ 0

/-- The globals after slot `i` has been given the name `name`. -/
def State.claim {val : Type} (s : State val) (i : Nat) (name : List Nat) : State val :=
  { s with vars := fun j => if j = i then { s.vars j with name := name } else s.vars j }

/-- The buffer that holds the line `l`: its bytes, the NUL that replaced the
newline, the NUL that `fgets` wrote behind the newline, and whatever earlier
lines left behind that. -/
def lineBuf (l : List Nat) (stale : List Nat) : List Nat := l ++ 0 :: 0 :: stale

/-- The lexeme of token `k`. -/
def lexeme (k : Nat) : List Nat := bytes (toknames.getD k "")

/-- The value of a decimal number `ddd.ddd` in units of 1/64, rounded towards
zero, and the number of bytes it takes; `(0, 0)` when there is no digit. -/
def fixStrtof (s : List Nat) : Int × Nat :=
  let a := digitsLen s
  let rest := s.drop a
  if byteAt rest 0 = 46 then
    let b := digitsLen (rest.drop 1)
    if a = 0 ∧ b = 0 then (0, 0)
    else (((digitsVal s 0 * 64 + digitsVal (rest.drop 1) 0 * 64 / 10 ^ b : Nat) : Int), a + 1 + b)
  else
    (((digitsVal s 0 * 64 : Nat) : Int), a)

/-- Binary fixed-point arithmetic with six fractional bits as an instance of
`ValOps`: the integer `v` stands for the number `v / 64`.  It agrees with
binary32 as long as all operands and results are multiples of 1/64 of magnitude
at most `2^18` (for `div` with a divisor other than zero, for `pow` with an
exponent that is a natural number), and it is used to evaluate the definitions
on inputs with fractions such as `.5`.  `strtof` reads decimal numbers without
exponent; the object representation is the four-byte two's-complement one of
`v`. -/
def fixOps : ValOps Int where
  ofInt := fun n => 64 * n
  toInt := fun v => Int.tdiv v 64
  add := fun a b => a + b
  sub := fun a b => a - b
  mul := fun a b => Int.tdiv (a * b) 64
  div := fun a b => Int.tdiv (a * 64) b
  pow := fun a b =>
    if (Int.tdiv b 64).toNat = 0 then 64
    else Int.tdiv (a ^ (Int.tdiv b 64).toNat) (64 ^ ((Int.tdiv b 64).toNat - 1))
  neg := fun a => -a
  lt := fun a b => decide (a < b)
  le := fun a b => decide (a ≤ b)
  eq := fun a b => decide (a = b)
  raw := intBytes
  unraw := bytesInt
  strtof := fixStrtof
  rnd := fun _ => 0

/-- A numbered line of 85 bytes: `1.5` followed by 41 times `.5`. -/
def long_line : List Nat := bytes "1.5" ++ (List.replicate 41 (bytes ".5")).flatten

/-- The globals after the line `long_line` has been entered. -/
def long_store : State Int :=
  (handle_line fixOps 60 long_line (init_state fixOps)).state (zero_state fixOps)

/-- The globals after `20 print 7` has been entered as well. -/
def long_store2 : State Int :=
  (handle_line fixOps 60 (bytes "20 print 7") long_store).state (zero_state fixOps)

/-- The spacing of the binary32 values at the magnitude `a`: 1 below `2^24`, and
doubled with every halving of `a` that it takes to get below `2^24`; `fuel`
bounds the number of halvings. -/
def ulp24 : Nat → Nat → Nat
  | 0, _ => 1
  | fuel + 1, a => if a < 16777216 then 1 else 2 * ulp24 fuel (a / 2)

/-- Rounding of an integer to the nearest one that binary32 holds, that is, to
24 significant bits, a tie going to the even significand. -/
def rnd24 (x : Int) : Int :=
  let a := x.natAbs
  let u := ulp24 128 a
  let q := a / u
  let r := a % u
  let q1 := if u < 2 * r ∨ (u = 2 * r ∧ q % 2 = 1) then q + 1 else q
  if x < 0 then -((q1 * u : Nat) : Int) else ((q1 * u : Nat) : Int)

/-- Integer arithmetic rounded as binary32 rounds it: sums, differences and
products are rounded to 24 significant bits, as are the conversion from `int` and
the value of a run of decimal digits.  It agrees with `intOps` on integers of
magnitude at most `2^24` and shows what becomes of larger ones.  Fractions are
not represented: division truncates and `strtof` reads digits only. -/
def f32Ops : ValOps Int where
  ofInt := fun n => rnd24 n
  toInt := fun v => v
  add := fun a b => rnd24 (a + b)
  sub := fun a b => rnd24 (a - b)
  mul := fun a b => rnd24 (a * b)
  div := fun a b => Int.tdiv a b
  pow := fun a b => rnd24 (a ^ b.toNat)
  neg := fun a => -a
  lt := fun a b => decide (a < b)
  le := fun a b => decide (a ≤ b)
  eq := fun a b => decide (a = b)
  raw := intBytes
  unraw := bytesInt
  strtof := fun s => (rnd24 (digitsVal s 0 : Nat), digitsLen s)
  rnd := fun _ => 0

/-- The array `buf` after `fgets` has read a last line that ends the input
without a newline: `fgets` writes one NUL behind it and `main` finds no newline
to replace, so the bytes of earlier lines begin one byte further on. -/
def fgets_last (buf line : List Nat) : List Nat :=
  line ++ [0] ++ buf.drop (line.length + 1)

/-- The input line `if 0 then print 'c' else print 2` with the byte `c` between
the quotes. -/
def if_char_line (c : Nat) : List Nat :=
  bytes "if 0 then print '" ++ c :: bytes "' else print 2"

end ZBasic

/-! ## Theorems -/

namespace ZBasic

open zb_err

section Basics

variable {val : Type}

theorem bind_apply {α β : Type} (m : M val α) (f : α → M val β) (s : State val) :
    (m >>= f) s = M.bind m f s := rfl

theorem pure_apply {α : Type} (a : α) (s : State val) :
    (pure a : M val α) s = Res.ok a s := rfl

theorem intBytes_length (x : Int) : (intBytes x).length = sizeof_val := rfl

theorem bytesInt_intBytes (x : Int) (h1 : -2147483648 ≤ x) (h2 : x < 2147483648) :
    bytesInt (intBytes x) = x := by
  simp only [bytesInt, intBytes, List.getD_cons_zero, List.getD_cons_succ]
  have hn : ((x % 4294967296).toNat : Int) = x % 4294967296 :=
    Int.toNat_of_nonneg (Int.emod_nonneg _ (by decide))
  generalize (x % 4294967296).toNat = n at hn
  have e : n % 256 + 256 * (n / 256 % 256) + 65536 * (n / 65536 % 256)
      + 16777216 * (n / 16777216 % 256) = n % 4294967296 := by omega
  rw [e]
  split <;> omega

theorem or128 : ∀ h < 128,
    h ||| 128 = h + 128 ∧ (h + 128) &&& 128 ≠ 0 ∧ (h + 128) &&& 127 = h := by
  decide

theorem and128_small : ∀ b < 128, b &&& 128 = 0 := by decide

/-- The two payload bytes `put_lit` writes for `128 ≤ m < 32512`, and what
`get_lit` computes from them. -/
theorem lit2_bytes (m : Nat) (h1 : 128 ≤ m) (h2 : m < 32512) :
    u8 (Int.lor ((m : Int) >>> 8) 128) = m / 256 + 128 ∧
    u8 (Int.land (m : Int) 255) = m % 256 ∧
    (m / 256 + 128) &&& 128 ≠ 0 ∧
    ((((m / 256 + 128) &&& 127) <<< 8) ||| (m % 256)) = m := by
  obtain ⟨a, b, c⟩ := or128 (m / 256) (by omega)
  have e1 : m >>> 8 = m / 256 := by rw [Nat.shiftRight_eq_div_pow]
  have e2 : m &&& 255 = m % 256 := Nat.and_pow_two_sub_one_eq_mod m 8
  have i1 : Int.lor ((m : Int) >>> 8) 128 = (((m >>> 8) ||| 128 : Nat) : Int) := rfl
  have i2 : Int.land (m : Int) 255 = (((m &&& 255) : Nat) : Int) := rfl
  refine ⟨?_, ?_, b, ?_⟩
  · rw [i1, e1, a]; simp only [u8]; omega
  · rw [i2, e2]; simp only [u8]; omega
  · rw [c, Nat.shiftLeft_eq, Nat.mul_comm, ← Nat.mul_add_lt_is_or (by omega : m % 256 < 2 ^ 8)]
    omega

theorem intOps_exact : intOps.Exact where
  toInt_ofInt := fun _ _ _ => rfl
  eq_ofInt := fun _ _ _ _ _ _ => rfl
  lt_ofInt := fun _ _ _ _ _ _ => rfl
  le_ofInt := fun _ _ _ _ _ _ => rfl
  add_ofInt := fun _ _ _ _ _ _ _ _ => rfl
  neg_ofInt := fun _ _ _ => rfl
  raw_length := fun _ => rfl
  unraw_raw := fun n h1 h2 => bytesInt_intBytes n (by omega) (by omega)

end Basics

section Prims

variable {val : Type} (F : ValOps val)

theorem expect_ok (tok : Nat) (s : State val) (h : s.mem s.cur = tok) :
    expect tok s = Res.ok () (s.at (s.cur + 1)) := by
  simp [expect, next_is, cur_tok, bind_apply, M.bind, h, modS, pure, M.pure, State.at]

theorem expect_err (tok : Nat) (s : State val) (h : s.mem s.cur ≠ tok) :
    expect tok s = Res.error E_EXPECTED s := by
  simp [expect, next_is, cur_tok, bind_apply, M.bind, h, pure, M.pure, error]

theorem next_is_true (tok : Nat) (s : State val) (h : s.mem s.cur = tok) :
    next_is tok s = Res.ok true (s.at (s.cur + 1)) := by
  simp [next_is, cur_tok, bind_apply, M.bind, h, modS, pure, M.pure, State.at]

theorem next_is_false (tok : Nat) (s : State val) (h : s.mem s.cur ≠ tok) :
    next_is tok s = Res.ok false s := by
  simp [next_is, cur_tok, bind_apply, M.bind, h, pure, M.pure]

theorem cur_is_apply (tok : Nat) (s : State val) :
    cur_is tok s = Res.ok (decide (s.mem s.cur = tok)) s := by
  simp [cur_is, cur_tok, bind_apply, M.bind, pure, M.pure]

/-- A literal in the one-byte form: tag, then a byte below 128. -/
theorem get_lit_one (s : State val) (h0 : s.mem s.cur = TOK_LIT)
    (h1 : s.mem (s.cur + 1) < 128) :
    get_lit F s = Res.ok (F.ofInt (s.mem (s.cur + 1) : Nat)) (s.at (s.cur + 2)) := by
  have hb : s.mem (s.cur + 1) ≠ 255 := by omega
  have ha : s.mem (s.cur + 1) &&& 128 = 0 := and128_small _ h1
  simp [get_lit, bind_apply, M.bind, expect_ok _ s h0, fetch, State.at, hb, ha, pure, M.pure]

/-- A literal in the two-byte form: tag, a byte from 128 to 254, one more byte. -/
theorem get_lit_two (s : State val) (h0 : s.mem s.cur = TOK_LIT)
    (h1 : s.mem (s.cur + 1) ≠ 255) (h2 : s.mem (s.cur + 1) &&& 128 ≠ 0) :
    get_lit F s =
      Res.ok (F.ofInt ((((s.mem (s.cur + 1) &&& 127) <<< 8) ||| s.mem (s.cur + 2) : Nat) : Int))
        (s.at (s.cur + 3)) := by
  simp [get_lit, bind_apply, M.bind, expect_ok _ s h0, fetch, State.at, h1, h2, pure, M.pure]

/-- A literal in the raw form: tag, `0xff`, the `sizeof(val)` bytes of the value. -/
theorem get_lit_raw (s : State val) (h0 : s.mem s.cur = TOK_LIT)
    (h1 : s.mem (s.cur + 1) = 255) :
    get_lit F s =
      Res.ok (F.unraw [s.mem (s.cur + 2), s.mem (s.cur + 3), s.mem (s.cur + 4), s.mem (s.cur + 5)])
        (s.at (s.cur + 6)) := by
  simp [get_lit, bind_apply, M.bind, expect_ok _ s h0, fetch, State.at, h1, pure, M.pure,
    getS, modS, sizeof_val, List.range, List.range.loop, Nat.add_assoc]

theorem get_chunk_ok (s : State val) (h : s.mem s.cur = TOK_CHUNK) :
    get_chunk s =
      Res.ok (s.mem (s.cur + 1), (s.mem (s.cur + 2) <<< 8) + s.mem (s.cur + 3))
        (s.at (s.cur + 4)) := by
  simp [get_chunk, bind_apply, M.bind, expect_ok _ s h, getS, modS, State.at, pure, M.pure,
    Nat.add_assoc]

theorem get_chunk_err (s : State val) (h : s.mem s.cur ≠ TOK_CHUNK) :
    get_chunk s = Res.error E_EXPECTED s := by
  simp [get_chunk, bind_apply, M.bind, expect_err _ s h]

theorem find_line_loop_spec (line save : Nat) (cs : List (Nat × Nat)) :
    ∀ (n : Nat) (s : State val) (p : Nat), s.cur = p → chunksAt s.mem p cs = true →
      firstChunk line p cs = some p1 → cs.length ≤ n →
      find_line_loop line save n s = Res.ok p1 (s.at save) := by
  induction cs with
  | nil => intro n s p _ _ hf; simp [firstChunk] at hf
  | cons c cs ih =>
    obtain ⟨l, len⟩ := c
    intro n s p hp hc hf hn
    obtain ⟨n, rfl⟩ : ∃ k, n = k + 1 := ⟨n - 1, by simp at hn; omega⟩
    simp only [chunksAt, Bool.and_eq_true, decide_eq_true_eq] at hc
    obtain ⟨⟨⟨⟨h1, h2⟩, h3⟩, h4⟩, h5⟩ := hc
    subst hp
    simp only [find_line_loop, bind_apply, M.bind, getS, get_chunk_ok s h1, h2, h4, if_neg h3]
    by_cases hl : line = l
    · simp only [firstChunk, if_pos hl, Option.some.injEq] at hf
      simp [hl, modS, bind_apply, M.bind, pure, M.pure, State.at, hf]
    · simp only [firstChunk, if_neg hl] at hf
      simp only [if_neg hl, modS, bind_apply, M.bind]
      have := ih n ((s.at (s.cur + 4)).at (s.cur + len)) (s.cur + len) rfl h5 hf
        (by simp at hn; omega)
      simpa [State.at] using this

theorem put_buf_ok (buf : List Nat) (s : State val)
    (h : s.end_ + buf.length < ZB_MEM_SIZE) : put_buf buf s = Res.ok () (s.append buf) := by
  have : ¬ (s.end_ + buf.length ≥ ZB_MEM_SIZE) := by omega
  simp only [put_buf, if_neg this]

theorem put_tok_ok (c : Nat) (s : State val) (h : s.end_ + 1 < ZB_MEM_SIZE) :
    put_tok c s = Res.ok () (s.append [c % 256]) :=
  put_buf_ok _ s (by simpa using h)

/-- The three forms `put_lit` chooses from, for an arena with room. -/
theorem put_lit_apply (v : val) (s : State val) (pay : List Nat)
    (hpay : pay =
      if F.eq v (F.ofInt (F.toInt v)) = true ∧ F.toInt v < 128 then [u8 (F.toInt v)]
      else if F.eq v (F.ofInt (F.toInt v)) = true ∧ F.toInt v < 32512 then
        [u8 (Int.lor (F.toInt v >>> 8) 0x80), u8 (Int.land (F.toInt v) 0xff)]
      else 0xff :: F.raw v)
    (room : s.end_ + 1 + pay.length < ZB_MEM_SIZE) :
    put_lit F v s = Res.ok () ((s.append [TOK_LIT]).append pay) := by
  have h1 : put_tok TOK_LIT s = Res.ok () (s.append [TOK_LIT]) :=
    @put_tok_ok val TOK_LIT s (by omega)
  have h2 : put_buf pay (s.append [TOK_LIT]) = Res.ok () ((s.append [TOK_LIT]).append pay) :=
    put_buf_ok pay _ (by simpa [State.append] using room)
  subst hpay
  simp only [put_lit, bind_apply, M.bind, h1]
  split_ifs at h2 ⊢ <;> exact h2

end Prims

/-- C8 (as amended): `put_buf` succeeds exactly when `end + len < ZB_MEM_SIZE`;
then the bytes are copied to `mem[end .. end+len)`, `end` advances by `len` and
nothing else changes.  Otherwise it fails with `E_MEM_FULL` and leaves all
globals, `end` and the arena among them, as they were. -/
theorem put_buf_spec {val : Type} (s : State val) (buf : List Nat) :
    (s.end_ + buf.length < ZB_MEM_SIZE ∧
      ∃ s1, put_buf buf s = Res.ok () s1 ∧ s1.end_ = s.end_ + buf.length ∧
        (∀ i, i < buf.length → s1.mem (s.end_ + i) = byteAt buf i) ∧
        (∀ j, (j < s.end_ ∨ s.end_ + buf.length ≤ j) → s1.mem j = s.mem j) ∧
        s1.cur = s.cur ∧ s1.vars = s.vars ∧ s1.running = s.running ∧
        s1.loop_stack = s.loop_stack ∧ s1.loop_head = s.loop_head ∧ s1.out = s.out) ∨
    (ZB_MEM_SIZE ≤ s.end_ + buf.length ∧ put_buf buf s = Res.error E_MEM_FULL s) := by
  by_cases h : s.end_ + buf.length ≥ ZB_MEM_SIZE
  · right
    exact ⟨h, by simp [put_buf, h]⟩
  · left
    refine ⟨by omega, ?_⟩
    simp only [put_buf, if_neg h]
    refine ⟨_, rfl, rfl, ?_, ?_, rfl, rfl, rfl, rfl, rfl, rfl⟩
    · intro i hi
      have : s.end_ ≤ s.end_ + i ∧ s.end_ + i < s.end_ + buf.length := ⟨by omega, by omega⟩
      simp [State.append, this]
    · intro j hj
      have : ¬ (s.end_ ≤ j ∧ j < s.end_ + buf.length) := by omega
      simp [State.append, this]

section ExprLemmas
variable {val : Type} (F : ValOps val)

theorem holdsAt_append (mem : Nat → Nat) (a b : List Nat) :
    ∀ p, holdsAt mem p (a ++ b) = (holdsAt mem p a && holdsAt mem (p + a.length) b) := by
  induction a with
  | nil => intro p; simp [holdsAt]
  | cons x a ih =>
    intro p
    rw [List.cons_append, holdsAt, holdsAt, ih, List.length_cons, Bool.and_assoc,
      show p + 1 + a.length = p + (a.length + 1) by omega]

theorem binop_prec_le (t : Nat) : binop_prec t ≤ 12 := by
  by_cases h : t < 20
  · interval_cases t <;> decide
  · have : binop_prec t = 0 := by
      unfold binop_prec
      rw [List.getD_eq_default]
      simp; omega
    omega

theorem isVal_eq (b : Bin val) (d : val) (h : b.isVal = true) : b = Bin.val (b.getD d) := by
  cases b with
  | val v => rfl
  | trap => cases h
  | dflt => cases h

/-- Among the binary operators other than `=` only `%` can fail to set a value,
and it does so exactly when its integer division traps. -/
theorem binop_isVal (op : Nat) (h0 : 0 < op) (h1 : op < BINOP_COUNT) (a b : val) :
    (binop F op a b).isVal = false ↔
      op = TOK_MOD ∧ (F.toInt b = 0 ∨ (F.toInt a = -2147483648 ∧ F.toInt b = -1)) := by
  have h1 : op < 20 := h1
  by_cases hm : op = TOK_MOD
  · subst hm
    show (if F.toInt b = 0 ∨ (F.toInt a = -2147483648 ∧ F.toInt b = -1) then Bin.trap
      else Bin.val (F.ofInt (Int.tmod (F.toInt a) (F.toInt b)))).isVal = false ↔ _
    by_cases h : F.toInt b = 0 ∨ (F.toInt a = -2147483648 ∧ F.toInt b = -1)
    · rw [if_pos h]; exact ⟨fun _ => ⟨rfl, h⟩, fun _ => rfl⟩
    · rw [if_neg h]; exact ⟨fun e => Bool.noConfusion e, fun e => absurd e.2 h⟩
  · have hm5 : op ≠ 5 := hm
    interval_cases op <;>
      first
      | exact absurd rfl hm5
      | exact ⟨fun e => Bool.noConfusion e, fun e => absurd e.1 hm⟩

theorem get_tok_binop (s : State val) (h : s.mem s.cur < BINOP_COUNT) :
    get_tok F s = Res.ok (s.mem s.cur) (s.at (s.cur + 1)) := by
  have h : s.mem s.cur < 20 := h
  have h1 : s.mem s.cur ≠ TOK_LIT := by simp only [TOK_LIT]; omega
  have h2 : s.mem s.cur ≠ TOK_STR := by simp only [TOK_STR]; omega
  have h3 : s.mem s.cur ≠ TOK_VAR := by simp only [TOK_VAR]; omega
  have h4 : s.mem s.cur ≠ TOK_CHUNK := by simp only [TOK_CHUNK]; omega
  simp [get_tok, bind_apply, M.bind, cur_tok, cur_is_apply, h1, h2, h3, h4, modS, pure, M.pure,
    State.at]

theorem E_succ (n p : Nat) (s : State val) :
    E F (n + 1) p s =
      match P F n ZB_VAR_COUNT s with
      | Res.ok (v, lvalue) s1 => E_loop F n p lvalue v s1
      | Res.error e s1 => Res.error e s1
      | Res.exit c s1 => Res.exit c s1
      | Res.crash s1 => Res.crash s1
      | Res.hang => Res.hang := by
  rw [E]
  simp only [bind_apply, M.bind]
  cases P F n ZB_VAR_COUNT s <;> rfl

theorem P_lit (n i : Nat) (s : State val) (v : val) (s1 : State val)
    (h : s.mem s.cur = TOK_LIT) (hg : get_lit F s = Res.ok v s1) :
    P F (n + 1) i s = Res.ok (v, i) s1 := by
  rw [P]
  simp [bind_apply, M.bind, cur_is_apply, h, hg, pure, M.pure]

theorem E_loop_exit (n p lv : Nat) (v : val) (s : State val)
    (h : ¬ (s.mem s.cur < BINOP_COUNT ∧ binop_prec (s.mem s.cur) ≥ p)) :
    E_loop F (n + 1) p lv v s = Res.ok v s := by
  rw [E_loop]
  simp only [bind_apply, M.bind, cur_tok, if_neg h]
  rfl

theorem E_loop_step (n p lv : Nat) (v v2 : val) (s s2 : State val)
    (h1 : s.mem s.cur < BINOP_COUNT) (h2 : binop_prec (s.mem s.cur) ≥ p)
    (h0 : s.mem s.cur ≠ TOK_ASSIGN)
    (hE : E F n (if s.mem s.cur ≠ TOK_POW then binop_prec (s.mem s.cur) + 1
      else binop_prec (s.mem s.cur)) (s.at (s.cur + 1)) = Res.ok v2 s2)
    (hv : (binop F (s.mem s.cur) v v2).isVal = true) :
    E_loop F (n + 1) p lv v s =
      E_loop F n p lv ((binop F (s.mem s.cur) v v2).getD (F.ofInt 0)) s2 := by
  have hw := isVal_eq (binop F (s.mem s.cur) v v2) (F.ofInt 0) hv
  rw [E_loop]
  simp only [bind_apply, M.bind, cur_tok, if_pos (And.intro h1 h2), get_tok_binop F s h1]
  simp only [h0, ne_eq, not_false_eq_true, and_true] at hE ⊢
  simp only [hE, if_false]
  rw [hw]
  rfl

@[simp] theorem at_at (s : State val) (a b : Nat) : (s.at a).at b = s.at b := rfl
@[simp] theorem at_mem (s : State val) (a : Nat) : (s.at a).mem = s.mem := rfl
@[simp] theorem at_cur (s : State val) (a : Nat) : (s.at a).cur = a := rfl

theorem raw_eq (hF : F.Exact) (v : val) :
    F.raw v = [(F.raw v).getD 0 0, (F.raw v).getD 1 0, (F.raw v).getD 2 0, (F.raw v).getD 3 0] := by
  have h := hF.raw_length v
  generalize F.raw v = l at h
  match l, h with
  | [a, b, c, d], _ => rfl

theorem get_lit_litBytes (hF : F.Exact) (n : Nat) (hn : n ≤ 16777216) (s : State val)
    (h : holdsAt s.mem s.cur (TOK_LIT :: litBytes F n) = true) :
    get_lit F s = Res.ok (F.ofInt (n : Int)) (s.at (s.cur + (TOK_LIT :: litBytes F n).length)) := by
  unfold litBytes at h ⊢
  by_cases h1 : n < 128
  · simp only [if_pos h1, holdsAt, Bool.and_eq_true, decide_eq_true_eq, Bool.and_true] at h ⊢
    have g := get_lit_one F s h.1 (by rw [h.2]; exact h1)
    rw [g, h.2]; rfl
  · by_cases h2 : n < 32512
    · simp only [if_neg h1, if_pos h2, holdsAt, Bool.and_eq_true, decide_eq_true_eq,
        Bool.and_true] at h ⊢
      obtain ⟨ha, hb, hc⟩ := h
      obtain ⟨_, _, c0, c1⟩ := lit2_bytes n (by omega) h2
      have g := get_lit_two F s ha (by rw [hb]; omega) (by rw [hb]; exact c0)
      rw [g, hb, show s.cur + 2 = s.cur + 1 + 1 by omega, hc, c1]; rfl
    · simp only [if_neg h1, if_neg h2] at h ⊢
      rw [raw_eq F hF (F.ofInt (n : Int))] at h
      simp only [holdsAt, Bool.and_eq_true, decide_eq_true_eq, Bool.and_true] at h
      obtain ⟨ha, hb, h0, h1', h2', h3'⟩ := h
      have g := get_lit_raw F s ha hb
      simp only [Nat.add_assoc] at h0 h1' h2' h3'
      rw [g, h0, h1', h2', h3', ← raw_eq F hF, hF.unraw_raw n (by omega) (by omega)]
      simp [hF.raw_length, sizeof_val]

theorem prec_le_ten (op : Nat) (h1 : op < BINOP_COUNT) (h2 : op ≠ TOK_POW) :
    binop_prec op ≤ 10 := by
  have h1 : op < 20 := h1
  interval_cases op <;> first | decide | exact absurd rfl h2

theorem need_pos (t : Expr) : 1 ≤ t.need := by
  induction t with
  | lit n => simp [Expr.need]
  | bin op l r ihl ihr => simp only [Expr.need]; omega

theorem E_tree (hF : F.Exact) :
    ∀ (t : Expr), t.grouped = true → t.safe F = true → ∀ (p n : Nat) (s : State val),
      (∀ op l r, t = Expr.bin op l r → p ≤ binop_prec op) →
      holdsAt s.mem s.cur (t.toks F) = true →
      ¬ (s.mem (s.cur + (t.toks F).length) < BINOP_COUNT ∧
          binop_prec (s.mem (s.cur + (t.toks F).length)) ≥ t.bound) →
      t.need ≤ n →
      E F (n + t.cost + 1) p s =
        E_loop F n p ZB_VAR_COUNT (t.eval F) (s.at (s.cur + (t.toks F).length)) := by
  intro t
  induction t with
  | lit k =>
    intro hg _ p n s _ hh _ hn
    simp only [Expr.grouped, decide_eq_true_eq] at hg
    simp only [Expr.need] at hn
    obtain ⟨n, rfl⟩ : ∃ m, n = m + 1 := ⟨n - 1, by omega⟩
    simp only [Expr.toks] at hh ⊢
    have hl : s.mem s.cur = TOK_LIT := by
      simp only [holdsAt, Bool.and_eq_true, decide_eq_true_eq] at hh; exact hh.1
    simp only [Expr.cost, Nat.add_zero, E_succ,
      P_lit F n ZB_VAR_COUNT s _ _ hl (get_lit_litBytes F hF k hg s hh), Expr.eval]
  | bin op l r ihl ihr =>
    intro hg hs p n s hfit hh hnext hn
    simp only [Expr.grouped, Bool.and_eq_true, decide_eq_true_eq] at hg
    obtain ⟨⟨⟨⟨hop0, hop1⟩, hgl⟩, hgr⟩, hlev⟩ := hg
    simp only [Expr.safe, Bool.and_eq_true] at hs
    obtain ⟨⟨hsl, hsr⟩, hsv⟩ := hs
    have hp : p ≤ binop_prec op := hfit op l r rfl
    simp only [Expr.toks, holdsAt_append, Bool.and_eq_true, List.length_append,
      List.length_singleton, holdsAt, decide_eq_true_eq, Bool.and_true] at hh hnext ⊢
    obtain ⟨⟨hhl, hmid⟩, hhr⟩ := hh
    simp only [Expr.need] at hn
    simp only [Expr.bound] at hnext
    -- the left operand, then the operator
    have hl := ihl hgl hsl p (n + 1) s
      (by
        intro opl ll lr e
        subst e
        by_cases hpow : op = TOK_POW
        · simp [hpow, Expr.level] at hlev
          have := binop_prec_le opl; have : binop_prec TOK_POW = 12 := rfl; omega
        · simp [hpow, Expr.level] at hlev; omega)
      hhl
      (by
        rw [hmid]
        rintro ⟨_, h2⟩
        cases l with
        | lit k => simp only [Expr.bound] at h2; have := binop_prec_le op; omega
        | bin opl ll lr =>
          simp only [Expr.bound] at h2
          by_cases hpow : op = TOK_POW
          · simp [hpow, Expr.level] at hlev
            have := binop_prec_le opl; have : binop_prec TOK_POW = 12 := rfl; omega
          · simp only [if_neg hpow, Expr.level, Bool.and_eq_true, decide_eq_true_eq] at hlev
            have h10 := prec_le_ten op hop1 hpow
            have h12 : binop_prec TOK_POW = 12 := rfl
            split_ifs at h2 with hq
            · rw [hq] at h2; omega
            · omega)
      (by omega)
    rw [show n + (Expr.bin op l r).cost + 1 = n + 1 + l.cost + 1 by simp only [Expr.cost]; omega,
      hl]
    -- the right operand
    have hA : op ≠ TOK_ASSIGN := by simp only [TOK_ASSIGN]; omega
    obtain ⟨m, rfl⟩ : ∃ m, n = m + r.cost + 1 := ⟨n - r.cost - 1, by omega⟩
    have hr := ihr hgr hsr (if op ≠ TOK_POW then binop_prec op + 1 else binop_prec op) m
      ((s.at (s.cur + (l.toks F).length)).at (s.cur + (l.toks F).length + 1))
      (by
        intro opr rl rr e
        subst e
        by_cases hpow : op = TOK_POW
        · simp [hpow, Expr.level] at hlev ⊢; omega
        · simp [hpow, Expr.level] at hlev ⊢; omega)
      (by simpa using hhr)
      (by
        simp only [at_mem, at_cur]
        rw [show s.cur + (l.toks F).length + 1 + (r.toks F).length
          = s.cur + ((l.toks F).length + 1 + (r.toks F).length) by omega]
        rintro ⟨h1, h2⟩
        apply hnext
        refine ⟨h1, ?_⟩
        cases r with
        | lit k =>
          simp only [Expr.bound] at h2
          have := binop_prec_le (s.mem (s.cur + ((l.toks F).length + 1 + ((Expr.lit k).toks F).length)))
          omega
        | bin opr rl rr =>
          simp only [Expr.bound] at h2
          by_cases hpow : op = TOK_POW
          · simp only [hpow, if_true, Expr.level, Bool.and_eq_true, decide_eq_true_eq] at hlev ⊢
            split_ifs at h2 <;> omega
          · simp only [if_neg hpow, Expr.level, Bool.and_eq_true, decide_eq_true_eq] at hlev ⊢
            split_ifs at h2 <;> omega)
      (by omega)
    have hm : 1 ≤ m := by have := need_pos r; omega
    obtain ⟨m1, rfl⟩ : ∃ k, m = k + 1 := ⟨m - 1, by omega⟩
    rw [E_loop_exit] at hr
    · have step := E_loop_step F (m1 + 1 + r.cost + 1) p ZB_VAR_COUNT (l.eval F) (r.eval F)
        (s.at (s.cur + (l.toks F).length)) _
        (by simpa [hmid] using hop1) (by simpa [hmid] using hp) (by simpa [hmid] using hA)
        (by simpa [hmid] using hr) (by simpa [hmid] using hsv)
      rw [step]
      simp only [at_mem, at_cur, hmid, Expr.eval, at_at]
      rw [show s.cur + (l.toks F).length + 1 + (r.toks F).length
          = s.cur + ((l.toks F).length + 1 + (r.toks F).length) by omega]
    · simp only [at_mem, at_cur]
      rw [show s.cur + (l.toks F).length + 1 + (r.toks F).length
          = s.cur + ((l.toks F).length + 1 + (r.toks F).length) by omega]
      rintro ⟨h1, h2⟩
      exact hnext ⟨h1, by split_ifs at h2 ⊢ <;> omega⟩

end ExprLemmas

/-- The evaluation of a grouped tree without trapping operator by `E(0)`, for use
in further proofs. -/
theorem E_toks_eval {val : Type} (F : ValOps val) (hF : F.Exact) (t : Expr)
    (hg : t.grouped = true) (hs : t.safe F = true) (s : State val)
    (hh : holdsAt s.mem s.cur (t.toks F) = true)
    (hend : BINOP_COUNT ≤ s.mem (s.cur + (t.toks F).length))
    (n : Nat) (hn : t.need + t.cost + 2 ≤ n) :
    E F n 0 s = Res.ok (t.eval F) (s.at (s.cur + (t.toks F).length)) := by
  obtain ⟨m, rfl⟩ : ∃ m, n = (m + 1) + t.cost + 1 := ⟨n - t.cost - 2, by omega⟩
  rw [E_tree F hF t hg hs 0 (m + 1) s (fun _ _ _ _ => Nat.zero_le _) hh
    (by rintro ⟨h1, _⟩; omega) (by omega)]
  exact E_loop_exit F m 0 _ _ _ (by rintro ⟨h1, _⟩; simp only [at_mem, at_cur] at h1; omega)

section Group
variable {val : Type} (F : ValOps val)

end Group

section FrameLemmas
variable {val : Type} (F : ValOps val)

theorem Frame.refl (s : State val) : Frame s s :=
  ⟨rfl, rfl, rfl, rfl, rfl, fun _ => ⟨rfl, rfl⟩⟩

theorem Frame.trans {s s1 s2 : State val} (h1 : Frame s s1) (h2 : Frame s1 s2) : Frame s s2 := by
  unfold Frame at h1 h2 ⊢
  have hmem : s2.mem = s.mem := by rw [h2.1, h1.1]
  have hend : s2.end_ = s.end_ := by rw [h2.2.1, h1.2.1]
  have hrun : s2.running = s.running := by rw [h2.2.2.1, h1.2.2.1]
  have hstack : s2.loop_stack = s.loop_stack := by rw [h2.2.2.2.1, h1.2.2.2.1]
  have hhead : s2.loop_head = s.loop_head := by rw [h2.2.2.2.2.1, h1.2.2.2.2.1]
  refine ⟨hmem, hend, hrun, hstack, hhead, fun j => ?_⟩
  have hv1 := h1.2.2.2.2.2 j
  have hv2 := h2.2.2.2.2.2 j
  exact ⟨by rw [hv2.1, hv1.1], by rw [hv2.2, hv1.2]⟩

theorem keeps_pure {α : Type} (a : α) : Keeps (pure a : M val α) := by
  intro s b s1 h
  cases h
  exact Frame.refl s

theorem keeps_bind {α β : Type} (m : M val α) (f : α → M val β) (hm : Keeps m)
    (hf : ∀ a, Keeps (f a)) : Keeps (m >>= f) := by
  intro s b s2 h
  simp only [bind_apply, M.bind] at h
  cases hms : m s with
  | ok a s1 => rw [hms] at h; exact (hm s a s1 hms).trans (hf a s1 b s2 h)
  | error e s1 => rw [hms] at h; cases h
  | exit c s1 => rw [hms] at h; cases h
  | crash s1 => rw [hms] at h; cases h
  | hang => rw [hms] at h; cases h

theorem keeps_ite {α : Type} (c : Prop) [Decidable c] (m1 m2 : M val α) (h1 : Keeps m1)
    (h2 : Keeps m2) : Keeps (if c then m1 else m2) := by
  split <;> assumption

theorem keeps_error {α : Type} (e : zb_err) : Keeps (error e : M val α) := by
  intro s a s1 h; cases h

theorem keeps_hang {α : Type} : Keeps (hang : M val α) := by
  intro s a s1 h; cases h

theorem keeps_modS (f : State val → State val) (hf : ∀ s, Frame s (f s)) : Keeps (modS f) := by
  intro s a s1 h; cases h; exact hf s

theorem keeps_getS : Keeps (getS : M val (State val)) := by
  intro s a s1 h; cases h; exact Frame.refl s

theorem keeps_cur_tok : Keeps (cur_tok : M val Nat) := by
  intro s a s1 h; cases h; exact Frame.refl s

theorem keeps_fetch : Keeps (fetch : M val Nat) := by
  intro s a s1 h; cases h; exact ⟨rfl, rfl, rfl, rfl, rfl, fun _ => ⟨rfl, rfl⟩⟩

theorem keeps_cur_is (tok : Nat) : Keeps (cur_is tok : M val Bool) :=
  keeps_bind _ _ keeps_cur_tok (fun _ => keeps_pure _)

theorem keeps_next_is (tok : Nat) : Keeps (next_is tok : M val Bool) :=
  keeps_bind _ _ keeps_cur_tok (fun _ => keeps_ite _ _ _
    (keeps_bind _ _ (keeps_modS _ (fun _ => ⟨rfl, rfl, rfl, rfl, rfl, fun _ => ⟨rfl, rfl⟩⟩))
      (fun _ => keeps_pure _))
    (keeps_pure _))

theorem keeps_expect (tok : Nat) : Keeps (expect tok : M val Unit) :=
  keeps_bind _ _ (keeps_next_is tok) (fun _ => keeps_ite _ _ _ (keeps_error _) (keeps_pure _))

theorem keeps_get_lit : Keeps (get_lit F) := by
  unfold get_lit
  refine keeps_bind _ _ (keeps_expect _) (fun _ => keeps_bind _ _ keeps_fetch (fun b0 => ?_))
  refine keeps_ite _ _ _ ?_ (keeps_ite _ _ _ ?_ (keeps_pure _))
  · exact keeps_bind _ _ keeps_getS (fun _ => keeps_bind _ _
      (keeps_modS _ (fun _ => ⟨rfl, rfl, rfl, rfl, rfl, fun _ => ⟨rfl, rfl⟩⟩))
      (fun _ => keeps_pure _))
  · exact keeps_bind _ _ keeps_fetch (fun _ => keeps_pure _)

theorem keeps_get_var_idx : Keeps (get_var_idx : M val Nat) :=
  keeps_bind _ _ (keeps_expect _) (fun _ => keeps_fetch)

theorem keeps_get_str_idx : Keeps (get_str_idx : M val Nat) := by
  unfold get_str_idx
  exact keeps_bind _ _ (keeps_expect _) (fun _ => keeps_bind _ _ keeps_getS (fun _ =>
    keeps_bind _ _ (keeps_modS _ (fun _ => ⟨rfl, rfl, rfl, rfl, rfl, fun _ => ⟨rfl, rfl⟩⟩))
      (fun _ => keeps_pure _)))

theorem keeps_get_chunk : Keeps (get_chunk : M val (Nat × Nat)) := by
  unfold get_chunk
  exact keeps_bind _ _ (keeps_expect _) (fun _ => keeps_bind _ _ keeps_getS (fun _ =>
    keeps_bind _ _ (keeps_modS _ (fun _ => ⟨rfl, rfl, rfl, rfl, rfl, fun _ => ⟨rfl, rfl⟩⟩))
      (fun _ => keeps_pure _)))

theorem keeps_step : Keeps (modS fun s : State val => { s with cur := s.cur + 1 }) :=
  keeps_modS _ (fun _ => ⟨rfl, rfl, rfl, rfl, rfl, fun _ => ⟨rfl, rfl⟩⟩)

theorem keeps_get_tok : Keeps (get_tok F) := by
  unfold get_tok
  dsimp only
  repeat' (first
    | exact keeps_pure _ | exact keeps_cur_tok | exact keeps_cur_is _ | exact keeps_get_lit F
    | exact keeps_get_str_idx | exact keeps_get_var_idx | exact keeps_get_chunk
    | exact keeps_step
    | apply keeps_bind | apply keeps_ite | intro _)

theorem keeps_emit (o : Out val) : Keeps (emit o) :=
  keeps_modS _ (fun _ => ⟨rfl, rfl, rfl, rfl, rfl, fun _ => ⟨rfl, rfl⟩⟩)

theorem keeps_assign (i : Nat) (v : val) : Keeps (assign i v) := by
  refine keeps_modS _ (fun s => ⟨rfl, rfl, rfl, rfl, rfl, fun j => ?_⟩)
  simp only [State.setVar]
  split <;> exact ⟨rfl, rfl⟩

theorem keeps_get_var (call : Option cfunc → M val val) (hc : ∀ f, Keeps (call f)) :
    Keeps (get_var F call) := by
  unfold get_var
  refine keeps_bind _ _ keeps_get_var_idx (fun i => keeps_bind _ _ keeps_getS (fun s => ?_))
  refine keeps_ite _ _ _ (keeps_pure _) (keeps_ite _ _ _ ?_ (keeps_pure _))
  exact keeps_bind _ _ (keeps_expect _) (fun _ => keeps_bind _ _ (hc _) (fun _ =>
    keeps_bind _ _ (keeps_expect _) (fun _ => keeps_pure _)))

theorem keeps_nrand : Keeps (modS fun s : State val => { s with nrand := s.nrand + 1 }) :=
  keeps_modS _ (fun _ => ⟨rfl, rfl, rfl, rfl, rfl, fun _ => ⟨rfl, rfl⟩⟩)

theorem keeps_E_all : ∀ n : Nat,
    (∀ p, Keeps (E F n p)) ∧ (∀ p lv v, Keeps (E_loop F n p lv v)) ∧
    (∀ i, Keeps (P F n i)) ∧ (∀ f, Keeps (fn_call F n f)) := by
  intro n
  induction n with
  | zero =>
    refine ⟨fun p => ?_, fun p lv v => ?_, fun i => ?_, fun f => ?_⟩
    · rw [E]; exact keeps_hang
    · rw [E_loop]; exact keeps_hang
    · rw [P]; exact keeps_hang
    · rw [fn_call]; exact keeps_hang
  | succ n ih =>
    obtain ⟨hE, hL, hP, hC⟩ := ih
    refine ⟨fun p => ?_, fun p lv v => ?_, fun i => ?_, fun f => ?_⟩
    · rw [E]
      refine keeps_bind _ _ (hP _) ?_
      rintro ⟨v, lv⟩
      exact hL _ _ _
    · rw [E_loop]
      dsimp only
      refine keeps_bind _ _ keeps_cur_tok (fun t => keeps_ite _ _ _ ?_ (keeps_pure _))
      refine keeps_bind _ _ (keeps_get_tok F) (fun tok => keeps_bind _ _ (hE _) (fun v2 => ?_))
      refine keeps_ite _ _ _ (keeps_ite _ _ _ (keeps_error _) ?_) ?_
      · exact keeps_bind _ _ (keeps_assign _ _) (fun _ => hL _ _ _)
      · split
        · exact hL _ _ _
        · intro s a s1 h; cases h
        · exact keeps_error _
    · rw [P]
      repeat' (first
        | exact keeps_pure _ | exact keeps_cur_is _ | exact keeps_next_is _
        | exact keeps_get_lit F | exact keeps_expect _ | exact keeps_error _
        | exact hE _ | exact keeps_get_var F _ hC
        | apply keeps_bind | apply keeps_ite | intro _)
    · match f with
      | none => rw [fn_call]; intro s a s1 h; cases h
      | some cfunc.fn_rnd =>
        rw [fn_call]
        exact keeps_bind _ _ keeps_getS (fun _ => keeps_bind _ _ keeps_nrand
          (fun _ => keeps_pure _))
      | some cfunc.fn_putc =>
        rw [fn_call]
        dsimp only
        repeat' (first
          | exact keeps_pure _ | exact keeps_emit _ | exact hE _
          | apply keeps_bind | intro _)
      | some cfunc.fn_plot =>
        rw [fn_call]
        repeat' (first
          | exact keeps_pure _ | exact keeps_emit _ | exact hE _ | exact keeps_expect _
          | apply keeps_bind | intro _)
      | some cfunc.fn_cls => rw [fn_call]; exact keeps_pure _
      | some cfunc.fn_exit =>
        rw [fn_call]
        refine keeps_bind _ _ (hE _) (fun v => ?_)
        intro s a s1 h; cases h

/-- Evaluating an expression keeps the frame. -/
theorem E_frame (n p : Nat) (s s1 : State val) (v : val) (h : E F n p s = Res.ok v s1) :
    Frame s s1 :=
  (keeps_E_all F n).1 p s v s1 h

end FrameLemmas

section AssignLemmas
variable {val : Type} (F : ValOps val)

theorem E_loop_ok_stop : ∀ (n p lv : Nat) (v v1 : val) (s s1 : State val),
    E_loop F n p lv v s = Res.ok v1 s1 →
    ¬ (s1.mem s1.cur < BINOP_COUNT ∧ binop_prec (s1.mem s1.cur) ≥ p) := by
  intro n
  induction n with
  | zero => intro p lv v v1 s s1 h; simp [E_loop, hang] at h
  | succ n ih =>
    intro p lv v v1 s s1 h
    rw [E_loop] at h
    simp only [bind_apply, M.bind, cur_tok] at h
    by_cases hc : s.mem s.cur < BINOP_COUNT ∧ binop_prec (s.mem s.cur) ≥ p
    · simp only [if_pos hc, bind_apply, M.bind, get_tok_binop F s hc.1] at h
      split at h
      · rename_i v2 s2 hE
        split_ifs at h with h1 h2
        · simp [error] at h
        · simp only [bind_apply, M.bind, assign, modS] at h
          exact ih _ _ _ _ _ _ h
        · cases hb : binop F (s.mem s.cur) v v2 with
          | dflt => simp [hb, error] at h
          | trap => simp [hb] at h
          | val w => simp only [hb] at h; exact ih _ _ _ _ _ _ h
      all_goals simp at h
    · simp only [if_neg hc, pure, M.pure] at h
      cases h
      exact hc

theorem E_ok_stop (n p : Nat) (v1 : val) (s s1 : State val)
    (h : E F n p s = Res.ok v1 s1) :
    ¬ (s1.mem s1.cur < BINOP_COUNT ∧ binop_prec (s1.mem s1.cur) ≥ p) := by
  cases n with
  | zero => simp [E, hang] at h
  | succ n =>
    rw [E_succ] at h
    split at h
    · exact E_loop_ok_stop F _ _ _ _ _ _ _ h
    all_goals simp at h

theorem get_var_idx_ok (s : State val) (h : s.mem s.cur = TOK_VAR) :
    get_var_idx s = Res.ok (s.mem (s.cur + 1)) (s.at (s.cur + 2)) := by
  simp [get_var_idx, bind_apply, M.bind, expect_ok _ s h, fetch, State.at]

theorem P_var (n i : Nat) (s : State val) (h : s.mem s.cur = TOK_VAR)
    (ht : (s.vars (s.mem (s.cur + 1))).type ≠ VAR_TYPE_CFUNC) :
    P F (n + 1) i s =
      Res.ok (if (s.vars (s.mem (s.cur + 1))).type = VAR_TYPE_VAL
          then (s.vars (s.mem (s.cur + 1))).v else F.ofInt 0, s.mem (s.cur + 1))
        (s.at (s.cur + 2)) := by
  have e1 : ¬ (TOK_VAR = TOK_LIT) := by decide
  rw [P]
  simp only [bind_apply, M.bind, cur_is_apply, h, e1, decide_False, decide_True, if_true,
    Bool.false_eq_true, if_false, get_var, get_var_idx_ok s h, getS, at_mem, at_cur]
  simp only [State.at] at ht ⊢
  by_cases hv : (s.vars (s.mem (s.cur + 1))).type = VAR_TYPE_VAL
  · simp [hv, pure, M.pure]
  · simp [hv, ht, pure, M.pure]

theorem P_var_cfunc (n i : Nat) (s : State val) (h : s.mem s.cur = TOK_VAR)
    (ht : (s.vars (s.mem (s.cur + 1))).type = VAR_TYPE_CFUNC)
    (ho : s.mem (s.cur + 2) ≠ TOK_OPEN) :
    P F (n + 1) i s = Res.error E_EXPECTED (s.at (s.cur + 2)) := by
  have e1 : ¬ (TOK_VAR = TOK_LIT) := by decide
  have hv : (s.vars (s.mem (s.cur + 1))).type ≠ VAR_TYPE_VAL := by rw [ht]; decide
  rw [P]
  simp only [bind_apply, M.bind, cur_is_apply, h, e1, decide_False, decide_True, if_true,
    Bool.false_eq_true, if_false, get_var, get_var_idx_ok s h, getS, at_mem, at_cur]
  simp only [State.at] at ht hv ⊢
  have e2 : ¬ (VAR_TYPE_CFUNC = VAR_TYPE_VAL) := by decide
  have he := expect_err TOK_OPEN (s.at (s.cur + 2)) ho
  simp only [State.at] at he
  simp only [ht, e2, if_true, if_false, bind_apply, M.bind, he]

theorem E_loop_assign (n lv : Nat) (v r : val) (s s1 : State val)
    (h : s.mem s.cur = TOK_ASSIGN) (hE : E F n 0 (s.at (s.cur + 1)) = Res.ok r s1) :
    E_loop F (n + 1) 0 lv v s =
      if lv = ZB_VAR_COUNT then Res.error E_NOT_LVALUE s1 else Res.ok r (s1.setVar lv r) := by
  have hb : s.mem s.cur < BINOP_COUNT := by rw [h]; decide
  have hc : s.mem s.cur < BINOP_COUNT ∧ binop_prec (s.mem s.cur) ≥ 0 := ⟨hb, Nat.zero_le _⟩
  have hstop := E_ok_stop F n 0 r _ s1 hE
  obtain ⟨m, rfl⟩ : ∃ m, n = m + 1 := by
    cases n with
    | zero => simp [E, hang] at hE
    | succ m => exact ⟨m, rfl⟩
  have hp : (if s.mem s.cur ≠ TOK_POW ∧ s.mem s.cur ≠ TOK_ASSIGN
      then binop_prec (s.mem s.cur) + 1 else binop_prec (s.mem s.cur)) = 0 := by
    rw [h]; rfl
  rw [E_loop]
  simp only [bind_apply, M.bind, cur_tok, if_pos hc, get_tok_binop F s hb, hp, hE]
  simp only [h, if_true]
  by_cases hl : lv = ZB_VAR_COUNT
  · simp only [if_pos hl]; rfl
  · simp only [if_neg hl, bind_apply, M.bind, assign, modS]
    exact E_loop_exit F m 0 lv r (s1.setVar lv r) hstop

end AssignLemmas

section ForLemmas
variable {val : Type} (F : ValOps val)


end ForLemmas

/-- C1: for an integer `0 ≤ n ≤ 32511` and an arena with room, `put_lit`
appends the tag `TOK_LIT` and one payload byte when `n ≤ 127` (two bytes in
all), two payload bytes when `128 ≤ n` (three bytes in all), changes no other
byte, and `get_lit` started at the offset of the tag returns the value and
leaves `cur` at the new `end`. -/
theorem put_lit_get_lit_small {val : Type} (F : ValOps val) (hF : F.Exact) (n : Int)
    (h0 : 0 ≤ n) (h1 : n ≤ 32511) (s : State val)
    (room : s.end_ + (if n ≤ 127 then 2 else 3) < ZB_MEM_SIZE) :
    ∃ s1, put_lit F (F.ofInt n) s = Res.ok () s1 ∧
      s1.end_ = s.end_ + (if n ≤ 127 then 2 else 3) ∧
      s1.mem s.end_ = TOK_LIT ∧
      (∀ j, (j < s.end_ ∨ s1.end_ ≤ j) → s1.mem j = s.mem j) ∧
      get_lit F (s1.at s.end_) = Res.ok (F.ofInt n) (s1.at s1.end_) := by
  have ht : F.toInt (F.ofInt n) = n := hF.toInt_ofInt n (by omega) (by omega)
  have he : F.eq (F.ofInt n) (F.ofInt n) = true := by
    rw [hF.eq_ofInt n n (by omega) (by omega) (by omega) (by omega)]; simp
  obtain ⟨m, rfl⟩ := Int.eq_ofNat_of_zero_le h0
  by_cases hs : (m : Int) ≤ 127
  · simp only [hs, if_true] at room ⊢
    have hu : u8 (m : Int) = m := by simp only [u8]; omega
    have hp := put_lit_apply F (F.ofInt (m : Int)) s [m]
      (by rw [ht, he, if_pos ⟨rfl, by omega⟩, hu]) (by simpa using room)
    refine ⟨_, hp, by simp [State.append], by simp [State.append, byteAt, TOK_LIT], ?_, ?_⟩
    · intro j hj
      simp only [State.append, List.length_singleton] at hj ⊢
      rw [if_neg (by omega), if_neg (by omega)]
    · have g := get_lit_one F (((s.append [TOK_LIT]).append [m]).at s.end_)
        (by simp [State.append, State.at, byteAt, TOK_LIT])
        (by simp [State.append, State.at, byteAt]; omega)
      rw [g]
      simp [State.append, State.at, byteAt, Nat.add_assoc]
  · simp only [hs, if_false] at room ⊢
    obtain ⟨b0, b1, c0, c1⟩ := lit2_bytes m (by omega) (by omega)
    have hp := put_lit_apply F (F.ofInt (m : Int)) s [m / 256 + 128, m % 256]
      (by rw [ht, he, if_neg (by omega), if_pos ⟨rfl, by omega⟩, b0, b1]) (by simpa using room)
    refine ⟨_, hp, by simp [State.append], by simp [State.append, byteAt, TOK_LIT], ?_, ?_⟩
    · intro j hj
      simp only [State.append, List.length_singleton, List.length_cons, List.length_nil] at hj ⊢
      rw [if_neg (by omega), if_neg (by omega)]
    · have g := get_lit_two F (((s.append [TOK_LIT]).append [m / 256 + 128, m % 256]).at s.end_)
        (by simp [State.append, State.at, byteAt, TOK_LIT])
        (by simp [State.append, State.at, byteAt]; omega)
        (by simpa [State.append, State.at, byteAt] using c0)
      rw [g]
      simp [State.append, State.at, byteAt, Nat.add_assoc, c1]

/-- C1 (witness): the boundary value 32511 in an empty arena. -/
theorem put_lit_get_lit_small_witness :
    ∃ s1, put_lit intOps (intOps.ofInt 32511) (zero_state intOps) = Res.ok () s1 ∧
      s1.end_ = (zero_state intOps).end_ + (if (32511 : Int) ≤ 127 then 2 else 3) ∧
      s1.mem (zero_state intOps).end_ = TOK_LIT ∧
      (∀ j, (j < (zero_state intOps).end_ ∨ s1.end_ ≤ j) → s1.mem j = (zero_state intOps).mem j) ∧
      get_lit intOps (s1.at (zero_state intOps).end_) =
        Res.ok (intOps.ofInt 32511) (s1.at s1.end_) :=
  put_lit_get_lit_small intOps intOps_exact 32511 (by decide) (by decide) (zero_state intOps)
    (by decide)

/-- C2 (the code at the failing input): for `v = -1` the test `v == vi && vi < 128`
of `put_lit` holds, so the value is written in the one-byte form, as the byte
`0xff`, two bytes in all.  `get_lit` takes that byte for the marker of the raw
form: it reads the four bytes behind the token, returns what they hold (here 0,
not -1) and leaves `cur` at 6, past `end = 2`. -/
theorem put_lit_negative_one :
    ∃ s1, put_lit intOps (-1) (zero_state intOps) = Res.ok () s1 ∧
      s1.end_ = 2 ∧ s1.mem 0 = TOK_LIT ∧ s1.mem 1 = 255 ∧
      get_lit intOps (s1.at 0) = Res.ok 0 (s1.at 6) :=
  ⟨_, rfl, rfl, rfl, rfl, rfl⟩

/-- C4 (as amended): for a slot `i` that is not function-typed and a right-hand
expression that `E(0)` evaluates without error to `r`, leaving the globals
`s1`, `E(0)` on the stream `VAR(i) = e` returns `r` and leaves `s1` with slot
`i` set to value type and value `r`.  The name of slot `i` and of every other
slot is as before the assignment, the type and value of every other slot are as
the right-hand side left them, and the arena and `end` are unchanged. -/
theorem assign_var {val : Type} (F : ValOps val) (s : State val) (i n : Nat) (r : val)
    (s1 : State val)
    (h0 : s.mem s.cur = TOK_VAR) (h1 : s.mem (s.cur + 1) = i) (hi : i < ZB_VAR_COUNT)
    (ht : (s.vars i).type ≠ VAR_TYPE_CFUNC) (h2 : s.mem (s.cur + 2) = TOK_ASSIGN)
    (hE : E F n 0 (s.at (s.cur + 3)) = Res.ok r s1) :
    E F (n + 2) 0 s = Res.ok r (s1.setVar i r) ∧
      ((s1.setVar i r).vars i).type = VAR_TYPE_VAL ∧ ((s1.setVar i r).vars i).v = r ∧
      (∀ j, ((s1.setVar i r).vars j).name = (s.vars j).name) ∧
      (∀ j, j ≠ i → ((s1.setVar i r).vars j).type = (s1.vars j).type ∧
        ((s1.setVar i r).vars j).v = (s1.vars j).v) ∧
      (s1.setVar i r).mem = s.mem ∧ (s1.setVar i r).end_ = s.end_ ∧
      (s1.setVar i r).cur = s1.cur ∧ (s1.setVar i r).out = s1.out := by
  obtain ⟨f1, f2, _, _, _, f6⟩ := E_frame F n 0 _ s1 r hE
  refine ⟨?_, by simp [State.setVar], by simp [State.setVar], ?_, ?_, f1, f2, rfl, rfl⟩
  · subst h1
    rw [E_succ, P_var F _ _ s h0 ht]
    have := E_loop_assign F n (s.mem (s.cur + 1))
      (if (s.vars (s.mem (s.cur + 1))).type = VAR_TYPE_VAL
        then (s.vars (s.mem (s.cur + 1))).v else F.ofInt 0) r (s.at (s.cur + 2)) s1 h2 hE
    have hne : s.mem (s.cur + 1) ≠ ZB_VAR_COUNT := by omega
    simp only [if_neg hne] at this
    exact this
  · intro j
    have := (f6 j).1
    simp only [State.setVar]
    split <;> exact this
  · intro j hj
    simp [State.setVar, hj]

/-- C4 (witness): the chained assignment `a = b = 3` groups to the right and
leaves both slots (5 and 6) equal to 3. -/
theorem assign_var_witness :
    E intOps 7 0 chain_state = Res.ok 3 (((chain_state.at 8).setVar 6 3).setVar 5 3) ∧
    ((((chain_state.at 8).setVar 6 3).setVar 5 3).vars 5).v = 3 ∧
    ((((chain_state.at 8).setVar 6 3).setVar 5 3).vars 6).v = 3 :=
  ⟨(assign_var intOps chain_state 5 5 3 ((chain_state.at 8).setVar 6 3) rfl rfl (by decide)
      (by decide) rfl
      (assign_var intOps (chain_state.at 3) 6 3 3 (chain_state.at 8) rfl rfl (by decide)
        (by decide) rfl
        (E_toks_eval intOps intOps_exact (Expr.lit 3) (by decide) rfl (chain_state.at 6) (by decide)
          (by decide) 3 (by decide))).1).1,
    rfl, rfl⟩

/-- C4 (counterexample): `rnd` is the function-typed slot 0; the line `rnd = 5`
fails with `E_EXPECTED` (a function-typed variable must be followed by `(`),
and the slot is still function-typed afterwards. -/
theorem assign_function_slot_fails :
    ((init_state intOps).vars 0).name = bytes "rnd" ∧
    ((init_state intOps).vars 0).type = VAR_TYPE_CFUNC ∧
    (handle_line intOps 50 (bytes "rnd = 5") (init_state intOps)).err = some E_EXPECTED ∧
    (((handle_line intOps 50 (bytes "rnd = 5") (init_state intOps)).state
      (zero_state intOps)).vars 0).type = VAR_TYPE_CFUNC := by
  decide!

/-- C9 (the code at the failing input): the immediate line `if 1 then` is five
bytes long and prints nothing, but after `a = 1 : print 7` it prints 7 again:
`run_chunk(true)` called by `fn_if` consumes the `TOK_EOF` of the line, and the
loop of the outer `run_chunk` goes on dispatching at `cur = end`, through the
bytes the earlier line left behind.  After `print 2 - 1` the same line fails
in those stale bytes, and `handle_line` is left with `cur = 6` above `end = 5`. -/
theorem dispatch_past_end :
    ((main intOps 50 ["if 1 then"]).state (zero_state intOps)).out = [] ∧
    ((main intOps 50 ["a = 1 : print 7", "if 1 then"]).state (zero_state intOps)).out =
      [Out.num 7, Out.chr 10, Out.num 7, Out.chr 10] ∧
    ((main intOps 50 ["print 2 - 1"]).state (zero_state intOps)).cur = 0 ∧
    ((main intOps 50 ["print 2 - 1"]).state (zero_state intOps)).end_ = 0 ∧
    ((main intOps 50 ["print 2 - 1", "if 1 then"]).state (zero_state intOps)).cur = 6 ∧
    ((main intOps 50 ["print 2 - 1", "if 1 then"]).state (zero_state intOps)).end_ = 5 := by
  decide!

theorem rnd24_id (n : Int) (h1 : -16777216 ≤ n) (h2 : n ≤ 16777216) : rnd24 n = n := by
  by_cases h : n.natAbs < 16777216
  · have hu : ulp24 128 n.natAbs = 1 := by simp [ulp24, h]
    unfold rnd24
    have hq : ¬ (1 < 2 * 0 ∨ (1 = 2 * 0 ∧ n.natAbs % 2 = 1)) := by omega
    simp only [hu, Nat.div_one, Nat.mod_one, Nat.mul_one, if_neg hq]
    split <;> omega
  · have : n = 16777216 ∨ n = -16777216 := by omega
    rcases this with rfl | rfl <;> decide

theorem f32Ops_exact : f32Ops.Exact where
  toInt_ofInt := fun n h1 h2 => rnd24_id n h1 h2
  eq_ofInt := fun a b h1 h2 h3 h4 => by
    show decide (rnd24 a = rnd24 b) = decide (a = b)
    rw [rnd24_id a h1 h2, rnd24_id b h3 h4]
  lt_ofInt := fun a b h1 h2 h3 h4 => by
    show decide (rnd24 a < rnd24 b) = decide (a < b)
    rw [rnd24_id a h1 h2, rnd24_id b h3 h4]
  le_ofInt := fun a b h1 h2 h3 h4 => by
    show decide (rnd24 a ≤ rnd24 b) = decide (a ≤ b)
    rw [rnd24_id a h1 h2, rnd24_id b h3 h4]
  add_ofInt := fun a b h1 h2 h3 h4 _ _ => by
    show rnd24 (rnd24 a + rnd24 b) = rnd24 (a + b)
    rw [rnd24_id a h1 h2, rnd24_id b h3 h4]
  neg_ofInt := fun a h1 h2 => by
    show -rnd24 a = rnd24 (-a)
    rw [rnd24_id a h1 h2, rnd24_id (-a) (by omega) (by omega)]
  raw_length := fun _ => rfl
  unraw_raw := fun n h1 h2 => by
    show bytesInt (intBytes (rnd24 n)) = rnd24 n
    rw [rnd24_id n h1 h2]
    exact bytesInt_intBytes n (by omega) (by omega)

/-- C6: when the arena starts with the well-formed chunks `cs` and one of them
carries line number `line`, `find_line(line)` returns the start offset of the
first such chunk in arena order and leaves `cur` (and every other global) as it
was on entry.  Fuel equal to the number of chunks suffices. -/
theorem find_line_first {val : Type} (line : Nat) (cs : List (Nat × Nat)) (p1 : Nat)
    (s : State val) (n : Nat) (hc : chunksAt s.mem 0 cs = true)
    (hf : firstChunk line 0 cs = some p1) (hn : cs.length ≤ n) :
    find_line n line s = Res.ok p1 s := by
  have := find_line_loop_spec line s.cur cs n (s.at 0) 0 rfl hc hf hn
  simp only [find_line, bind_apply, M.bind, getS, modS]
  simpa [State.at] using this

/-- C6 (witness): in a store of three chunks numbered 10, 20, 10 (ten bytes
each), line 10 is found at the first of its two chunks. -/
theorem find_line_first_witness :
    chunksAt store3.mem 0 [(10, 10), (20, 10), (10, 10)] = true ∧
    firstChunk 10 0 [(10, 10), (20, 10), (10, 10)] = some 0 ∧
    find_line 3 10 store3 = Res.ok 0 store3 :=
  ⟨by decide!, by decide,
    find_line_first 10 [(10, 10), (20, 10), (10, 10)] 0 store3 3 (by decide!) (by decide)
      (by decide)⟩

/-- C7 (the code at the failing input): with no chunk stored, the immediate line
`goto 10` fails with `E_EXPECTED`, raised by `expect(TOK_CHUNK)` in `get_chunk`,
not with `E_LINE_NOT_FOUND`; so do `goto 30` and `gosub 30` when the store holds
lines 10, 20 and 10. -/
theorem goto_missing_line_expected :
    (handle_line intOps 50 (bytes "goto 10") (init_state intOps)).err = some E_EXPECTED ∧
    (handle_line intOps 50 (bytes "goto 30") store3).err = some E_EXPECTED ∧
    (handle_line intOps 50 (bytes "gosub 30") store3).err = some E_EXPECTED := by
  decide!

/-- C8 (counterexample): with `end = 2047` a write of one byte would fill the
arena exactly (`end + len = 2048 = ZB_MEM_SIZE`), and `put_buf` refuses it with
`E_MEM_FULL`. -/
theorem put_buf_exact_fill_fails :
    (2047 + [7].length ≤ ZB_MEM_SIZE) ∧
    put_buf [7] { zero_state intOps with end_ := 2047 } =
      Res.error E_MEM_FULL { zero_state intOps with end_ := 2047 } :=
  ⟨by decide, rfl⟩

section GosubLemmas
variable {val : Type} (F : ValOps val)

theorem eq_ok_of_isOk (d : State val) (r : Res (State val) Unit) (h : r.isOk = true) :
    r = Res.ok () (r.state d) := by
  cases r <;> simp_all [Res.isOk, Res.state]

theorem toIdx_ofInt (hF : F.Exact) (N : Nat) (hN : N ≤ 16777216) :
    toIdx F (F.ofInt (N : Int)) = N := by
  simp only [toIdx]
  rw [hF.toInt_ofInt N (by omega) (by omega)]
  omega

/-- The C function `fn_gosub` with `cur` at the literal `N`: the chunk is
looked up, the loop of `run` is driven from its start, and `cur` is put back
behind the literal. -/
theorem fn_gosub_ok (hF : F.Exact) (N : Nat) (cs : List (Nat × Nat)) (p1 : Nat)
    (s s2 : State val) (n : Nat) (hN : N ≤ 16777216)
    (hlit : holdsAt s.mem s.cur (TOK_LIT :: litBytes F N) = true)
    (hc : chunksAt s.mem 0 cs = true) (hf : firstChunk N 0 cs = some p1)
    (hlen : cs.length ≤ n + 1)
    (hsub : run_loop F n (s.at p1) = Res.ok () s2) :
    fn_gosub F (n + 2) s = Res.ok () (s2.at (s.cur + (TOK_LIT :: litBytes F N).length)) := by
  have hg := get_lit_litBytes F hF N hN s hlit
  have hfl := find_line_loop_spec N (s.cur + (TOK_LIT :: litBytes F N).length) cs (n + 1)
    ((s.at (s.cur + (TOK_LIT :: litBytes F N).length)).at 0) 0 rfl hc hf hlen
  rw [fn_gosub]
  simp only [bind_apply, M.bind, hg, toIdx_ofInt F hF N hN, find_line, getS, modS, at_cur]
  simp only [State.at] at hfl hsub ⊢
  rw [hfl]
  simp only [run, bind_apply, M.bind, getS, modS, hsub]

/-- One pass through the loop body of `run_chunk` at a `gosub` token. -/
theorem run_chunk_gosub (n : Nat) (once : Bool) (s : State val) (h : s.mem s.cur = TOK_GOSUB)
    (s1 : State val) (hf : fn_gosub F n (s.at (s.cur + 1)) = Res.ok () s1) :
    run_chunk F (n + 1) once s =
      if once = true then Res.ok false s1 else run_chunk F n once s1 := by
  have e0 : s.mem s.cur ≠ TOK_CHUNK := by rw [h]; decide
  have e1 : s.mem s.cur ≠ TOK_PRINT := by rw [h]; decide
  have e2 : s.mem s.cur ≠ TOK_RUN := by rw [h]; decide
  have e3 : s.mem s.cur ≠ TOK_GOTO := by rw [h]; decide
  rw [run_chunk]
  simp only [bind_apply, M.bind, cur_is_apply, e0, decide_False, Bool.false_eq_true, if_false,
    next_is_false _ s e1, next_is_false _ s e2, next_is_false _ s e3, next_is_true _ s h,
    if_true, hf, pure, M.pure]
  cases once
  · simp
  · simp; rfl

end GosubLemmas

/-- C11: a run is under way with `cur` at the token `gosub`, followed by the
literal `N`; the arena starts with the well-formed chunks `cs`, the first of
them numbered `N` at offset `p1`; and the statement loop of `run`, started at
that chunk, comes back in the globals `s2` with the run still on (it was left
by a `return` that `run_chunk` dispatched itself, not by `end`).  Then
dispatching the `gosub` leaves exactly `s2` with `cur` at the token right
behind the literal, the run still on: a single dispatch returns there, and the
statement loop goes on dispatching from there.  Fuel `n + 3` suffices when `n`
suffices for the subroutine and the store has at most `n + 1` chunks. -/
theorem gosub_resumes {val : Type} (F : ValOps val) (hF : F.Exact) (N : Nat)
    (cs : List (Nat × Nat)) (p1 : Nat) (s s2 : State val) (n : Nat) (once : Bool)
    (hN : N ≤ 16777216) (h0 : s.mem s.cur = TOK_GOSUB)
    (hlit : holdsAt s.mem (s.cur + 1) (TOK_LIT :: litBytes F N) = true)
    (hc : chunksAt s.mem 0 cs = true) (hf : firstChunk N 0 cs = some p1)
    (hlen : cs.length ≤ n + 1)
    (hsub : run_loop F n (s.at p1) = Res.ok () s2) (hret : s2.running = true) :
    run_chunk F (n + 3) once s =
      (if once = true then Res.ok false (s2.at (s.cur + 1 + (TOK_LIT :: litBytes F N).length))
       else run_chunk F (n + 2) once (s2.at (s.cur + 1 + (TOK_LIT :: litBytes F N).length))) ∧
    (s2.at (s.cur + 1 + (TOK_LIT :: litBytes F N).length)).running = true := by
  refine ⟨?_, hret⟩
  exact run_chunk_gosub F (n + 2) once s h0 _
    (fn_gosub_ok F hF N cs p1 (s.at (s.cur + 1)) s2 n hN hlit hc hf hlen hsub)

/-- C11 (witness): in the program of spec scenario 4, dispatching `gosub 100`
of line 10 runs line 100 (which prints 1) up to the `return` of line 110 and
comes back with `cur = 9`, the `TOK_EOF` behind the literal 100; and the
immediate line `run` on that program returns without error having printed 1 and
then 2. -/
theorem gosub_resumes_witness :
    (run_chunk intOps 13 true gosub_state =
        Res.ok false (((run_loop intOps 10 (gosub_state.at 28)).state gosub_state).at 9) ∧
      (((run_loop intOps 10 (gosub_state.at 28)).state gosub_state).at 9).running = true) ∧
    ((run_loop intOps 10 (gosub_state.at 28)).state gosub_state).out = [Out.num 1, Out.chr 10] ∧
    gosub_state.mem 9 = TOK_EOF ∧
    (handle_line intOps 50 (bytes "run") store4).isOk = true ∧
    ((handle_line intOps 50 (bytes "run") store4).state store4).out =
      [Out.num 1, Out.chr 10, Out.num 2, Out.chr 10] :=
  ⟨gosub_resumes intOps intOps_exact 100
      [(10, 10), (20, 10), (30, 8), (100, 10), (110, 8)] 28 gosub_state _ 10 true (by decide)
      (by decide!) (by decide!) (by decide!) (by decide) (by decide)
      (eq_ok_of_isOk gosub_state _ (by decide!)) (by decide!),
    by decide!, by decide!, by decide!, by decide!⟩

section IfLemmas
variable {val : Type} (F : ValOps val)

theorem eq_ok_of_val {α : Type} (d : State val) (r : Res (State val) α) (a : α)
    (h : r.val = some a) : r = Res.ok a (r.state d) := by
  cases r <;> simp_all [Res.val, Res.state]

theorem get_str_idx_ok (s : State val) (h : s.mem s.cur = TOK_STR) :
    get_str_idx s = Res.ok (s.cur + 1 + 1) (s.at (s.cur + 1 + (s.mem (s.cur + 1) + 2))) := by
  simp [get_str_idx, bind_apply, M.bind, expect_ok _ s h, getS, modS, State.at, pure, M.pure]

/-- The C function `get_tok` on a well-formed token: it returns the tag and
leaves `cur` behind the payload. -/
theorem get_tok_plain (hF : F.Exact) (t : Tok) (ht : t.plain = true) (s : State val)
    (h : holdsAt s.mem s.cur (t.bytes F) = true) :
    get_tok F s = Res.ok t.tag (s.at (s.cur + (t.bytes F).length)) := by
  have c1 : TOK_VAR ≠ TOK_LIT := by decide
  have c2 : TOK_VAR ≠ TOK_STR := by decide
  have c3 : TOK_STR ≠ TOK_LIT := by decide
  cases t with
  | lit n =>
    simp only [Tok.plain, decide_eq_true_eq] at ht
    have g := get_lit_litBytes F hF n ht s h
    have h0 : s.mem s.cur = TOK_LIT := by
      simp only [Tok.bytes, holdsAt, Bool.and_eq_true, decide_eq_true_eq] at h; exact h.1
    simp [get_tok, bind_apply, M.bind, cur_tok, cur_is_apply, h0, g, pure, M.pure, Tok.tag,
      Tok.bytes]
  | var i =>
    simp only [Tok.bytes, holdsAt, Bool.and_eq_true, decide_eq_true_eq, Bool.and_true] at h
    simp [get_tok, bind_apply, M.bind, cur_tok, cur_is_apply, c1, c2, h.1, get_var_idx,
      expect_ok _ s h.1, fetch, pure, M.pure, Tok.tag, Tok.bytes, State.at, Nat.add_assoc]
  | str b =>
    simp only [Tok.bytes, holdsAt, Bool.and_eq_true, decide_eq_true_eq] at h
    simp only [get_tok, bind_apply, M.bind, cur_tok, cur_is_apply, c3, h.1, decide_False,
      decide_True, Bool.false_eq_true, if_false, if_true, get_str_idx_ok s h.1, h.2.1, pure,
      M.pure, Tok.tag, Tok.bytes, State.at, List.length_cons, List.length_append,
      List.length_nil]
    congr 2
    omega
  | op t =>
    simp only [Tok.plain, decide_eq_true_eq] at ht
    simp only [Tok.bytes, holdsAt, Bool.and_eq_true, decide_eq_true_eq, Bool.and_true] at h
    subst h
    obtain ⟨_, _, _, h1, h2, h3, h4⟩ := ht
    simp [get_tok, bind_apply, M.bind, cur_tok, cur_is_apply, h1, h2, h3, h4, modS, pure, M.pure,
      State.at, Tok.tag, Tok.bytes]

theorem plain_tag (t : Tok) (ht : t.plain = true) :
    t.tag ≠ TOK_ELSE ∧ t.tag ≠ TOK_COLON ∧ t.tag ≠ TOK_EOF := by
  cases t with
  | lit n => simp only [Tok.tag]; exact ⟨by decide, by decide, by decide⟩
  | var i => simp only [Tok.tag]; exact ⟨by decide, by decide, by decide⟩
  | str b => simp only [Tok.tag]; exact ⟨by decide, by decide, by decide⟩
  | op t =>
    simp only [Tok.plain, decide_eq_true_eq] at ht
    exact ⟨ht.1, ht.2.1, ht.2.2.1⟩

theorem bytes_head (t : Tok) : ∃ r, t.bytes F = t.tag :: r := by
  cases t <;> exact ⟨_, rfl⟩

theorem toksBytes_cons (t : Tok) (l : List Tok) :
    toksBytes F (t :: l) = t.bytes F ++ toksBytes F l := rfl

/-- The token-skipping loop of `fn_if` and `fn_else` passes over well-formed
tokens one by one and stops at the first stop tag behind them. -/
theorem skip_until_toks (hF : F.Exact) (stops : List Nat)
    (hst : ∀ x ∈ stops, x = TOK_ELSE ∨ x = TOK_COLON ∨ x = TOK_EOF) (stop : Nat)
    (hstop : stop ∈ stops) :
    ∀ (l : List Tok) (s : State val) (n : Nat), (∀ t ∈ l, t.plain = true) →
      holdsAt s.mem s.cur (toksBytes F l ++ [stop]) = true → l.length + 1 ≤ n →
      skip_until F stops n s = Res.ok () (s.at (s.cur + (toksBytes F l).length)) := by
  intro l
  induction l with
  | nil =>
    intro s n _ h hn
    obtain ⟨n, rfl⟩ : ∃ k, n = k + 1 := ⟨n - 1, by simp at hn; omega⟩
    simp only [toksBytes, List.map_nil, List.flatten_nil, List.nil_append, holdsAt,
      Bool.and_eq_true, decide_eq_true_eq, Bool.and_true] at h
    rw [skip_until]
    simp only [bind_apply, M.bind, cur_tok, h, hstop, if_true, toksBytes, List.map_nil,
      List.flatten_nil, List.length_nil, Nat.add_zero]
    rfl
  | cons t l ih =>
    intro s n hp h hn
    obtain ⟨n, rfl⟩ : ∃ k, n = k + 1 := ⟨n - 1, by simp at hn; omega⟩
    have ht := hp t (List.mem_cons_self t l)
    rw [toksBytes_cons, List.append_assoc, holdsAt_append, Bool.and_eq_true] at h
    obtain ⟨r, hr⟩ := bytes_head F t
    have h0 : s.mem s.cur = t.tag := by
      have := h.1
      rw [hr] at this
      simp only [holdsAt, Bool.and_eq_true, decide_eq_true_eq] at this
      exact this.1
    have hns : s.mem s.cur ∉ stops := by
      intro hm
      obtain ⟨a, b, c⟩ := plain_tag t ht
      rw [h0] at hm
      rcases hst _ hm with e | e | e
      · exact a e
      · exact b e
      · exact c e
    rw [skip_until]
    simp only [bind_apply, M.bind, cur_tok, if_neg hns, get_tok_plain F hF t ht s h.1]
    have := ih (s.at (s.cur + (t.bytes F).length)) n
      (fun x hx => hp x (List.mem_cons_of_mem t hx)) h.2 (by simp at hn; omega)
    rw [this, toksBytes_cons, List.length_append]
    simp [State.at, Nat.add_assoc]


/-- One pass through the loop body of `run_chunk` at an `if` token. -/
theorem run_chunk_if (n : Nat) (once : Bool) (s : State val) (h : s.mem s.cur = TOK_IF)
    (s1 : State val) (hf : fn_if F n (s.at (s.cur + 1)) = Res.ok () s1) :
    run_chunk F (n + 1) once s =
      if once = true then Res.ok false s1 else run_chunk F n once s1 := by
  have e0 : s.mem s.cur ≠ TOK_CHUNK := by rw [h]; decide
  have e1 : s.mem s.cur ≠ TOK_PRINT := by rw [h]; decide
  have e2 : s.mem s.cur ≠ TOK_RUN := by rw [h]; decide
  have e3 : s.mem s.cur ≠ TOK_GOTO := by rw [h]; decide
  have e4 : s.mem s.cur ≠ TOK_GOSUB := by rw [h]; decide
  have e5 : s.mem s.cur ≠ TOK_RETURN := by rw [h]; decide
  have e6 : s.mem s.cur ≠ TOK_FOR := by rw [h]; decide
  have e7 : s.mem s.cur ≠ TOK_NEXT := by rw [h]; decide
  rw [run_chunk]
  simp only [bind_apply, M.bind, cur_is_apply, e0, decide_False, Bool.false_eq_true, if_false,
    next_is_false _ s e1, next_is_false _ s e2, next_is_false _ s e3, next_is_false _ s e4,
    next_is_false _ s e5, next_is_false _ s e6, next_is_false _ s e7, next_is_true _ s h,
    if_true, hf, pure, M.pure]
  cases once
  · simp
  · simp; rfl

/-- One pass through the loop body of `run_chunk` at an `else` token. -/
theorem run_chunk_else (n : Nat) (once : Bool) (s : State val) (h : s.mem s.cur = TOK_ELSE)
    (s1 : State val) (hf : fn_else F n (s.at (s.cur + 1)) = Res.ok () s1) :
    run_chunk F (n + 1) once s =
      if once = true then Res.ok false s1 else run_chunk F n once s1 := by
  have e0 : s.mem s.cur ≠ TOK_CHUNK := by rw [h]; decide
  have e1 : s.mem s.cur ≠ TOK_PRINT := by rw [h]; decide
  have e2 : s.mem s.cur ≠ TOK_RUN := by rw [h]; decide
  have e3 : s.mem s.cur ≠ TOK_GOTO := by rw [h]; decide
  have e4 : s.mem s.cur ≠ TOK_GOSUB := by rw [h]; decide
  have e5 : s.mem s.cur ≠ TOK_RETURN := by rw [h]; decide
  have e6 : s.mem s.cur ≠ TOK_FOR := by rw [h]; decide
  have e7 : s.mem s.cur ≠ TOK_NEXT := by rw [h]; decide
  have e8 : s.mem s.cur ≠ TOK_IF := by rw [h]; decide
  rw [run_chunk]
  simp only [bind_apply, M.bind, cur_is_apply, e0, decide_False, Bool.false_eq_true, if_false,
    next_is_false _ s e1, next_is_false _ s e2, next_is_false _ s e3, next_is_false _ s e4,
    next_is_false _ s e5, next_is_false _ s e6, next_is_false _ s e7, next_is_false _ s e8,
    next_is_true _ s h, if_true, hf, pure, M.pure]
  cases once
  · simp
  · simp; rfl

/-- The C function `fn_if` on a condition that holds: the statement behind
`then` is dispatched once, and what that dispatch returns is dropped. -/
theorem fn_if_true (n : Nat) (s s1 t1 : State val) (v : val) (b : Bool)
    (hc : E F n 0 s = Res.ok v s1) (hthen : s1.mem s1.cur = TOK_THEN)
    (hv : truthy F v = true)
    (hS : run_chunk F n true (s1.at (s1.cur + 1)) = Res.ok b t1) :
    fn_if F (n + 1) s = Res.ok () t1 := by
  rw [fn_if]
  simp only [bind_apply, M.bind, expr, hc, expect_ok _ s1 hthen, hv, if_true, hS]
  rfl

/-- The C function `fn_if` on a condition that fails: the tokens up to `else`
are skipped and the `else` is consumed. -/
theorem fn_if_false (hF : F.Exact) (n : Nat) (s s1 : State val) (v : val) (S1 : List Tok)
    (hc : E F n 0 s = Res.ok v s1) (hv : truthy F v = false)
    (hp1 : ∀ t ∈ S1, t.plain = true)
    (hlay : holdsAt s1.mem s1.cur (TOK_THEN :: (toksBytes F S1 ++ [TOK_ELSE])) = true)
    (hn : S1.length + 1 ≤ n) :
    fn_if F (n + 1) s = Res.ok () (s1.at (s1.cur + 2 + (toksBytes F S1).length)) := by
  rw [holdsAt, Bool.and_eq_true, decide_eq_true_eq] at hlay
  have hk : skip_until F [TOK_EOF, TOK_ELSE, TOK_COLON] n (s1.at (s1.cur + 1)) =
      Res.ok () (s1.at (s1.cur + 1 + (toksBytes F S1).length)) :=
    skip_until_toks F hF [TOK_EOF, TOK_ELSE, TOK_COLON]
      (by intro x hx; simp at hx; tauto) TOK_ELSE (by simp) S1 (s1.at (s1.cur + 1)) n hp1
      hlay.2 hn
  have he : (s1.at (s1.cur + 1 + (toksBytes F S1).length)).mem
      (s1.at (s1.cur + 1 + (toksBytes F S1).length)).cur = TOK_ELSE := by
    have := hlay.2
    rw [holdsAt_append, Bool.and_eq_true] at this
    simpa [holdsAt] using this.2
  rw [fn_if]
  simp only [bind_apply, M.bind, expr, hc, expect_ok _ s1 hlay.1, hv, Bool.false_eq_true,
    if_false, hk]
  rw [next_is_true _ _ he]
  simp only [if_true, pure, M.pure, at_at, at_cur]
  congr 2
  omega

end IfLemmas


/-- The two branches of `if`, on token sequences that `get_tok` reads as they
were written: `cur` is at the token `if`, the condition `c` evaluates without
error to `v` and ends at `then`, and the rest of the line is `then S1 else S2`
followed by `TOK_EOF`, where `S1` and `S2` are sequences of well-formed tokens
without `else`, `:` and `TOK_EOF` (literals as `put_lit` writes them for the
integers 0 to `2^24`, variables, strings, tags without payload).

When `v` is not zero, the dispatch of the `if` is the dispatch of `S1` (taken
as any statement whose dispatch ends behind its last token with the rest of the
line still in the arena), and the dispatch that follows, at `else`, changes
nothing but `cur`, which it leaves at the `TOK_EOF` of the line: `S2` is not
executed.  When `v` is zero, the dispatch of the `if` changes nothing but `cur`
in the globals the condition left (`S1` is not executed) and leaves `cur` at
the first token of `S2`, which is dispatched next.  Both skips go over whole
tokens, whatever the payload bytes are.  A single dispatch (`once`) returns
there; the statement loop goes on from there. -/
theorem if_then_else {val : Type} (F : ValOps val) (hF : F.Exact) (s s1 : State val) (v : val)
    (S1 S2 : List Tok) (n : Nat) (once : Bool)
    (h0 : s.mem s.cur = TOK_IF)
    (hc : E F n 0 (s.at (s.cur + 1)) = Res.ok v s1)
    (hp1 : ∀ t ∈ S1, t.plain = true) (hp2 : ∀ t ∈ S2, t.plain = true)
    (hlay : holdsAt s.mem s1.cur
      (TOK_THEN :: (toksBytes F S1 ++ TOK_ELSE :: (toksBytes F S2 ++ [TOK_EOF]))) = true) :
    (truthy F v = true → ∀ t1 : State val,
        run_chunk F n true (s1.at (s1.cur + 1)) = Res.ok false t1 →
        t1.cur = s1.cur + 1 + (toksBytes F S1).length →
        holdsAt t1.mem t1.cur (TOK_ELSE :: (toksBytes F S2 ++ [TOK_EOF])) = true →
        run_chunk F (n + 2) once s =
          (if once = true then Res.ok false t1 else run_chunk F (n + 1) once t1) ∧
        ∀ m, S2.length + 1 ≤ m →
          run_chunk F (m + 1) once t1 =
            (if once = true
              then Res.ok false (t1.at (t1.cur + 1 + (toksBytes F S2).length))
              else run_chunk F m once (t1.at (t1.cur + 1 + (toksBytes F S2).length))) ∧
          t1.mem (t1.cur + 1 + (toksBytes F S2).length) = TOK_EOF) ∧
    (truthy F v = false → S1.length + 1 ≤ n →
      run_chunk F (n + 2) once s =
        (if once = true then Res.ok false (s1.at (s1.cur + 2 + (toksBytes F S1).length))
         else run_chunk F (n + 1) once (s1.at (s1.cur + 2 + (toksBytes F S1).length))) ∧
      holdsAt s.mem (s1.cur + 2 + (toksBytes F S1).length) (toksBytes F S2 ++ [TOK_EOF]) = true) := by
  have hm : s1.mem = s.mem := (E_frame F n 0 _ s1 v hc).1
  have hl := hlay
  rw [holdsAt, Bool.and_eq_true, decide_eq_true_eq, holdsAt_append, Bool.and_eq_true, holdsAt,
    Bool.and_eq_true, decide_eq_true_eq] at hl
  obtain ⟨hthen, hS1, helse, hS2⟩ := hl
  refine ⟨?_, ?_⟩
  · intro hv t1 hS hcur hrest
    rw [holdsAt, Bool.and_eq_true, decide_eq_true_eq] at hrest
    obtain ⟨he, hr2⟩ := hrest
    refine ⟨?_, ?_⟩
    · exact run_chunk_if F (n + 1) once s h0 t1
        (fn_if_true F n _ s1 t1 v false hc (by rw [hm]; exact hthen) hv hS)
    · intro m hmf
      have hk := skip_until_toks F hF [TOK_EOF, TOK_COLON]
        (by intro x hx; simp at hx; tauto) TOK_EOF (by simp) S2 (t1.at (t1.cur + 1)) m hp2
        hr2 hmf
      refine ⟨?_, ?_⟩
      · exact run_chunk_else F m once t1 he _ (by simpa [fn_else] using hk)
      · rw [holdsAt_append, Bool.and_eq_true] at hr2
        have := hr2.2
        simp only [holdsAt, Bool.and_eq_true, decide_eq_true_eq, Bool.and_true] at this
        exact this
  · intro hv hn
    refine ⟨?_, ?_⟩
    · refine run_chunk_if F (n + 1) once s h0 _
        (fn_if_false F hF n _ s1 v S1 hc hv hp1 ?_ hn)
      rw [hm, holdsAt, Bool.and_eq_true, decide_eq_true_eq, holdsAt_append, Bool.and_eq_true]
      exact ⟨hthen, hS1, by simp [holdsAt, helse]⟩
    · rw [← hS2]; congr 1; omega

/-- An instance of `if_then_else`: the stream of `if 0 then print 22 else
print 2` (the payload byte 22 of the literal equals the tag of `else`): the dispatch of the `if`
leaves `cur` at offset 8, the `print` of the second statement; with the
condition 1 it prints 22 and the next dispatch skips to the `TOK_EOF`.  As input
lines they print 2 only and 22 only; a string holding the bytes of `-`
(45, the tag `TOK_EOF`) and `#` (35, the tag of `:`) is skipped as a whole. -/
theorem if_then_else_witness :
    (run_chunk intOps 7 true (if_state 0) = Res.ok false ((if_state 0).at 8) ∧
      holdsAt (if_state 0).mem 8 [TOK_PRINT, TOK_LIT, 2, TOK_EOF] = true) ∧
    (run_chunk intOps 7 true (if_state 1) = Res.ok false if_printed ∧
      run_chunk intOps 4 true if_printed = Res.ok false (if_printed.at (if_printed.cur + 1 + 3)) ∧
      if_printed.mem (if_printed.cur + 1 + 3) = TOK_EOF) ∧
    if_printed.out = [Out.num 22, Out.chr 10] ∧ if_printed.cur = 7 ∧
    (after ["if 0 then print 22 else print 2"]).out = [Out.num 2, Out.chr 10] ∧
    (after ["if 1 then print 22 else print 2"]).out = [Out.num 22, Out.chr 10] ∧
    (after ["if 0 then print \"-#\" else print 45"]).out = [Out.num 45, Out.chr 10] ∧
    (after ["if 1 then print \"-#\" else print 45"]).out = [Out.str [45, 35], Out.chr 10] :=
  ⟨(if_then_else intOps intOps_exact (if_state 0) ((if_state 0).at 3) 0
      [Tok.op TOK_PRINT, Tok.lit 22] [Tok.op TOK_PRINT, Tok.lit 2] 5 true rfl
      (E_toks_eval intOps intOps_exact (Expr.lit 0) (by decide) rfl ((if_state 0).at 1) (by decide)
        (by decide) 5 (by decide))
      (by decide) (by decide) (by decide)).2 rfl (by decide),
    (fun h => ⟨h.1, h.2 3 (by decide)⟩)
     ((if_then_else intOps intOps_exact (if_state 1) ((if_state 1).at 3) 1
      [Tok.op TOK_PRINT, Tok.lit 22] [Tok.op TOK_PRINT, Tok.lit 2] 5 true rfl
      (E_toks_eval intOps intOps_exact (Expr.lit 1) (by decide) rfl ((if_state 1).at 1) (by decide)
        (by decide) 5 (by decide))
      (by decide) (by decide) (by decide)).1 rfl if_printed
        (eq_ok_of_val (zero_state intOps) _ false (by decide!)) (by decide!) (by decide!)),
    by decide!, by decide!, by decide!, by decide!, by decide!, by decide!⟩

/-- C12 (the code at the failing input): the input line
`if 0 then print 'c' else print 2` with the one byte `0xE9` for `c`.  The line
is tokenized without error as `if 0 then print LIT else print 2`, the literal
being the value `-23` of the signed `char`, which `put_lit` writes as the single
payload byte 233.  The condition is zero, so `fn_if` skips `S1` with `get_tok`;
`get_lit` reads 233 as the first byte of the two-byte form and takes the tag of
`else` for the second.  The skip therefore runs on to `TOK_EOF`, and `S2` is not
executed: nothing is printed, where the claim has 2 printed.  With the byte of
`a` between the quotes the line prints 2. -/
theorem else_tag_swallowed :
    (handle_line intOps 50 (if_char_line 233) (init_state intOps)).isOk = true ∧
    (List.range 12).map
        ((handle_line intOps 50 (if_char_line 233) (init_state intOps)).state
          (zero_state intOps)).mem =
      [TOK_IF, TOK_LIT, 0, TOK_THEN, TOK_PRINT, TOK_LIT, 233, TOK_ELSE, TOK_PRINT, TOK_LIT, 2,
        TOK_EOF] ∧
    ((handle_line intOps 50 (if_char_line 233) (init_state intOps)).state
        (zero_state intOps)).out = [] ∧
    ((handle_line intOps 50 (if_char_line 97) (init_state intOps)).state
        (zero_state intOps)).out = [Out.num 2, Out.chr 10] := by
  decide!

/-- C13 (the code at the failing input): the program of spec scenario 3 has
no `end`.  The immediate line `run` prints 1, 2, 3 and then fails with
`E_NESTED_RUN`: when the `TOK_EOF` of the last chunk (offset 33) has been
dispatched, `running` is still set, the loop of `run` calls `run_chunk` again
at offset 34, where the tokens of the immediate line itself lie, and the `run`
token found there is dispatched a second time.  `handle_line` is left by the
`longjmp`, so `end` stays at 36 instead of going back to 34.  The one-line
program `10 print 1` fails the same way. -/
theorem run_without_end_nested_run :
    (handle_line intOps 50 (bytes "run")
        (after ["10 for i = 1 to 3", "20 print i", "30 next"])).err = some E_NESTED_RUN ∧
    ((handle_line intOps 50 (bytes "run")
        (after ["10 for i = 1 to 3", "20 print i", "30 next"])).state (zero_state intOps)).out =
      [Out.num 1, Out.chr 10, Out.num 2, Out.chr 10, Out.num 3, Out.chr 10] ∧
    (after ["10 for i = 1 to 3", "20 print i", "30 next"]).end_ = 34 ∧
    (after ["10 for i = 1 to 3", "20 print i", "30 next"]).mem 33 = TOK_EOF ∧
    (after ["10 for i = 1 to 3", "20 print i", "30 next", "run"]).end_ = 36 ∧
    (handle_line intOps 50 (bytes "run") (after ["10 print 1"])).err = some E_NESTED_RUN := by
  decide!

/-- C16 (the code at the failing input): after `a = 1` the line `a + 1 = 5`
raises no error and leaves `a` (slot 5) equal to 5.  `E` sets `lvalue` when `P`
reads the variable `a` and never clears it, so after `a + 1` has been computed
the `=` still finds the slot of `a` and assigns to it. -/
theorem compound_lhs_assigns :
    (state_a1.vars 5).name = bytes "a" ∧ (state_a1.vars 5).v = 1 ∧
    (handle_line intOps 50 (bytes "a + 1 = 5") state_a1).err = none ∧
    (handle_line intOps 50 (bytes "a + 1 = 5") state_a1).isOk = true ∧
    (((handle_line intOps 50 (bytes "a + 1 = 5") state_a1).state (zero_state intOps)).vars 5).v
      = 5 := by
  decide!

/-- C18 (the code at the failing input): the immediate line `print 5 : print (`
prints 5 and fails with `E_EXPECTED`; `handle_line` is left by the `longjmp`
before `end = save`, so its seven bytes stay below `end`.  A later `run` starts
at offset 0 and dispatches them (5 is printed a second time).  The line
`10 print 1` entered afterwards is stored at offset 7, behind them, and
`goto 10` fails with `E_EXPECTED`, because `find_line` starts at offset 0 and
finds no chunk header there; in a fresh arena `goto 10` finds the line. -/
theorem failed_line_tokens_dispatched :
    (handle_line intOps 50 (bytes "print 5 : print (") (init_state intOps)).err =
      some E_EXPECTED ∧
    (after ["print 5 : print ("]).out = [Out.num 5, Out.chr 10] ∧
    (after ["print 5 : print ("]).end_ = 7 ∧
    (after ["print 5 : print (", "run"]).out = [Out.num 5, Out.chr 10, Out.num 5, Out.chr 10] ∧
    (after ["print 5 : print (", "10 print 1"]).mem 7 = TOK_CHUNK ∧
    (handle_line intOps 50 (bytes "goto 10") (after ["print 5 : print (", "10 print 1"])).err
      = some E_EXPECTED ∧
    (handle_line intOps 50 (bytes "goto 10") (after ["10 print 1"])).isOk = true := by
  decide!

/-- C19 (the code at the failing input): with the subroutine line
`100 if 1 then return : print 9`, the run of `10 gosub 100`, `20 end` prints 9.
`fn_if` drops the `true` that `run_chunk(true)` returns for the `return`, so the
statement loop of the subroutine goes on with `: print 9` and ends only at the
`return` of line 110.  With `100 return : print 9` nothing is printed. -/
theorem return_inside_if_dropped :
    (handle_line intOps 50 (bytes "run")
      (after ["10 gosub 100", "20 end", "100 if 1 then return : print 9", "110 return"])).isOk
      = true ∧
    (after ["10 gosub 100", "20 end", "100 if 1 then return : print 9", "110 return", "run"]).out
      = [Out.num 9, Out.chr 10] ∧
    (after ["10 gosub 100", "20 end", "100 return : print 9", "110 return", "run"]).out = [] := by
  decide!

/-- C20 (the code at the failing input): `tokstr` also holds the names `CHU`,
`LIT`, `VAR`, `STR`, `NON`, `EOF` of the tags after `TOK_COMMA`, and `find_tok`
searches all `NUM_TOKENS` entries.  So the identifiers `CHU`, `LIT`, `VAR`,
`STR` and `EOF` are found as tokens: the line `LIT` is tokenized as the bare tag
`TOK_LIT` followed by `TOK_EOF`, with no `TOK_VAR` and no slot index, whereas
`abc` gives `TOK_VAR`, the slot 5 and `TOK_EOF`. -/
theorem tag_names_not_variables :
    find_tok (bytes "CHU") 0 3 = TOK_CHUNK ∧ find_tok (bytes "LIT") 0 3 = TOK_LIT ∧
    find_tok (bytes "VAR") 0 3 = TOK_VAR ∧ find_tok (bytes "STR") 0 3 = TOK_STR ∧
    find_tok (bytes "EOF") 0 3 = TOK_EOF ∧
    (List.range 3).map
        ((lex intOps 9 (bytes "LIT") (init_state intOps)).state (zero_state intOps)).mem
      = [TOK_LIT, TOK_EOF, 0] ∧
    ((lex intOps 9 (bytes "LIT") (init_state intOps)).state (zero_state intOps)).end_ = 2 ∧
    (List.range 3).map
        ((lex intOps 9 (bytes "abc") (init_state intOps)).state (zero_state intOps)).mem
      = [TOK_VAR, 5, TOK_EOF] := by
  decide!

section VarLemmas
variable {val : Type}

theorem match_iff (p s : List Nat) : ∀ (len pi si : Nat),
    match_ p s pi si len = true ↔
      (∀ k < len, byteAt p (pi + k) = byteAt s (si + k)) ∧ byteAt p (pi + len) = 0 := by
  intro len
  induction len with
  | zero => intro pi si; simp [match_]
  | succ len ih =>
    intro pi si
    rw [match_]
    by_cases h : byteAt p pi = byteAt s si
    · simp only [h, ne_eq, not_true_eq_false, if_false, ih]
      constructor
      · rintro ⟨h1, h2⟩
        refine ⟨?_, by rw [← h2]; congr 1; omega⟩
        intro k hk
        cases k with
        | zero => simpa using h
        | succ k =>
          have := h1 k (by omega)
          rw [show pi + (k + 1) = pi + 1 + k by omega, show si + (k + 1) = si + 1 + k by omega]
          exact this
      · rintro ⟨h1, h2⟩
        refine ⟨?_, by rw [← h2]; congr 1; omega⟩
        intro k hk
        have := h1 (k + 1) (by omega)
        rw [show pi + (k + 1) = pi + 1 + k by omega, show si + (k + 1) = si + 1 + k by omega] at this
        exact this
    · simp only [h, ne_eq, not_false_eq_true, if_true, Bool.false_eq_true, false_iff]
      rintro ⟨h1, _⟩
      exact h (by simpa using h1 0 (by omega))

theorem byteAt_nameAt (line : List Nat) (ni len k : Nat) (hk : k < len) :
    byteAt (nameAt line ni len) k = byteAt line (ni + k) := by
  simp [byteAt, nameAt, List.getD_eq_getElem?_getD, hk]

theorem nameAt_length (line : List Nat) (ni len : Nat) : (nameAt line ni len).length = len := by
  simp [nameAt]

theorem byteAt_ge (p : List Nat) (k : Nat) (hk : p.length ≤ k) : byteAt p k = 0 := by
  simp [byteAt, List.getD_eq_getElem?_getD, List.getElem?_eq_none hk]

theorem byteAt_lt (p : List Nat) (hp : ∀ b ∈ p, b ≠ 0) (k : Nat) (hk : k < p.length) :
    byteAt p k ≠ 0 := by
  have : byteAt p k = p[k] := by simp [byteAt, List.getD_eq_getElem?_getD, hk]
  rw [this]
  exact hp _ (List.getElem_mem hk)

/-- For a stored name without NUL bytes, `match` holds exactly when the stored
name is the name looked up. -/
theorem match_name (p line : List Nat) (ni len : Nat) (hp : ∀ b ∈ p, b ≠ 0)
    (hname : ∀ k < len, byteAt line (ni + k) ≠ 0) :
    match_ p line 0 ni len = true ↔ p = nameAt line ni len := by
  rw [match_iff]
  constructor
  · rintro ⟨h1, h2⟩
    have hl : p.length = len := by
      rcases Nat.lt_trichotomy p.length len with h | h | h
      · have a := h1 p.length h
        rw [Nat.zero_add, byteAt_ge p _ (Nat.le_refl _)] at a
        exact absurd a.symm (hname _ h)
      · exact h
      · rw [Nat.zero_add] at h2
        exact absurd h2 (byteAt_lt p hp len h)
    apply List.ext_getElem
    · rw [hl, nameAt_length]
    · intro k hk1 hk2
      have a := h1 k (by omega)
      rw [Nat.zero_add] at a
      have b := byteAt_nameAt line ni len k (by omega)
      simp only [byteAt, List.getD_eq_getElem?_getD, List.getElem?_eq_getElem hk1,
        List.getElem?_eq_getElem hk2, Option.getD_some] at a b
      rw [a, ← b]
  · intro h
    subst h
    refine ⟨fun k hk => ?_, ?_⟩
    · rw [Nat.zero_add]; exact byteAt_nameAt line ni len k hk
    · rw [Nat.zero_add]; exact byteAt_ge _ _ (by rw [nameAt_length])

theorem free_iff (p : List Nat) (hp : ∀ b ∈ p, b ≠ 0) : byteAt p 0 = 0 ↔ p = [] := by
  cases p with
  | nil => simp [byteAt]
  | cons a p =>
    have := hp a (List.mem_cons_self a p)
    simp [byteAt, this]


theorem first_or_none (P : Nat → Prop) (n : Nat) :
    (∃ m, m < n ∧ P m ∧ ∀ j, j < m → ¬ P j) ∨ (∀ j, j < n → ¬ P j) := by
  induction n with
  | zero => right; intro j hj; omega
  | succ n ih =>
    rcases ih with ⟨m, hm, hp, hf⟩ | h
    · exact Or.inl ⟨m, by omega, hp, hf⟩
    · by_cases hn : P n
      · exact Or.inl ⟨n, by omega, hn, h⟩
      · right
        intro j hj
        rcases Nat.lt_succ_iff_lt_or_eq.mp hj with h1 | h1
        · exact h j h1
        · rw [h1]; exact hn

theorem loop_found (vars : Nat → var val) (line : List Nat) (ni len m : Nat)
    (hm : match_ (vars m).name line 0 ni len = true) :
    ∀ (k i ifree : Nat), i ≤ m → m < i + k →
      (∀ j, i ≤ j → j < m → match_ (vars j).name line 0 ni len = false) →
      find_var_loop vars line ni len k i ifree = Sum.inl m := by
  intro k
  induction k with
  | zero => intro i ifree h1 h2; omega
  | succ k ih =>
    intro i ifree h1 h2 hno
    rw [find_var_loop]
    by_cases hi : i = m
    · subst hi; rw [if_pos hm]
    · rw [if_neg (by rw [hno i (Nat.le_refl i) (by omega)]; simp)]
      exact ih (i + 1) _ (by omega) (by omega) (fun j hj1 hj2 => hno j (by omega) hj2)

theorem loop_keep (vars : Nat → var val) (line : List Nat) (ni len : Nat) :
    ∀ (k i ifree : Nat), ifree ≠ ZB_VAR_COUNT →
      (∀ j, i ≤ j → j < i + k → match_ (vars j).name line 0 ni len = false) →
      find_var_loop vars line ni len k i ifree = Sum.inr ifree := by
  intro k
  induction k with
  | zero => intro i ifree _ _; rfl
  | succ k ih =>
    intro i ifree hf hno
    rw [find_var_loop, if_neg (by rw [hno i (Nat.le_refl i) (by omega)]; simp),
      if_neg (fun h => hf h.1)]
    exact ih (i + 1) ifree hf (fun j hj1 hj2 => hno j (by omega) (by omega))

theorem loop_free (vars : Nat → var val) (line : List Nat) (ni len f : Nat)
    (hf : byteAt (vars f).name 0 = 0) (hf32 : f ≠ ZB_VAR_COUNT) :
    ∀ (k i : Nat), i ≤ f → f < i + k →
      (∀ j, i ≤ j → j < i + k → match_ (vars j).name line 0 ni len = false) →
      (∀ j, i ≤ j → j < f → byteAt (vars j).name 0 ≠ 0) →
      find_var_loop vars line ni len k i ZB_VAR_COUNT = Sum.inr f := by
  intro k
  induction k with
  | zero => intro i h1 h2; omega
  | succ k ih =>
    intro i h1 h2 hno hnf
    rw [find_var_loop, if_neg (by rw [hno i (Nat.le_refl i) (by omega)]; simp)]
    by_cases hi : i = f
    · subst hi
      rw [if_pos ⟨rfl, hf⟩]
      exact loop_keep vars line ni len k (i + 1) i hf32
        (fun j hj1 hj2 => hno j (by omega) (by omega))
    · rw [if_neg (fun h => hnf i (Nat.le_refl i) (by omega) h.2)]
      exact ih (i + 1) (by omega) (by omega) (fun j hj1 hj2 => hno j (by omega) (by omega))
        (fun j hj1 hj2 => hnf j (by omega) hj2)

theorem loop_full (vars : Nat → var val) (line : List Nat) (ni len : Nat) :
    ∀ (k i : Nat),
      (∀ j, i ≤ j → j < i + k → match_ (vars j).name line 0 ni len = false) →
      (∀ j, i ≤ j → j < i + k → byteAt (vars j).name 0 ≠ 0) →
      find_var_loop vars line ni len k i ZB_VAR_COUNT = Sum.inr ZB_VAR_COUNT := by
  intro k
  induction k with
  | zero => intro i _ _; rfl
  | succ k ih =>
    intro i hno hnf
    rw [find_var_loop, if_neg (by rw [hno i (Nat.le_refl i) (by omega)]; simp),
      if_neg (fun h => hnf i (Nat.le_refl i) (by omega) h.2)]
    exact ih (i + 1) (fun j hj1 hj2 => hno j (by omega) (by omega))
      (fun j hj1 hj2 => hnf j (by omega) (by omega))

theorem strncpy_nameAt (line : List Nat) : ∀ (len ni : Nat),
    (∀ k < len, byteAt line (ni + k) ≠ 0) → strncpy_bytes line ni len = nameAt line ni len := by
  intro len
  induction len with
  | zero => intro ni _; rfl
  | succ len ih =>
    intro ni h
    rw [strncpy_bytes, if_neg (by simpa using h 0 (by omega)),
      ih (ni + 1) (fun k hk => by
        have := h (k + 1) (by omega)
        rwa [show ni + (k + 1) = ni + 1 + k by omega] at this)]
    simp only [nameAt, List.range_succ_eq_map, List.map_cons, List.map_map, Nat.add_zero]
    congr 1
    apply List.map_congr_left
    intro k _
    simp only [Function.comp]
    congr 1
    omega


theorem find_var_found (s : State val) (line : List Nat) (ni len i : Nat)
    (hlen : len ≤ ZB_VAR_NAME_LEN) (hname : ∀ k < len, byteAt line (ni + k) ≠ 0)
    (hok : TableOk s.vars) (hi : i < ZB_VAR_COUNT)
    (hm : (s.vars i).name = nameAt line ni len)
    (hfirst : ∀ j, j < i → (s.vars j).name ≠ nameAt line ni len) :
    find_var line ni len s = Res.ok i s := by
  have h := loop_found s.vars line ni len i
    ((match_name _ line ni len (hok i hi) hname).mpr hm) ZB_VAR_COUNT 0 ZB_VAR_COUNT
    (Nat.zero_le i) (by omega)
    (fun j _ hj => by
      have := (match_name _ line ni len (hok j (by omega)) hname).not.mpr (hfirst j hj)
      simpa using this)
  simp only [find_var, if_neg (Nat.not_lt.mpr hlen), h]

theorem find_var_claim (s : State val) (line : List Nat) (ni len i : Nat)
    (hlen : len ≤ ZB_VAR_NAME_LEN) (hname : ∀ k < len, byteAt line (ni + k) ≠ 0)
    (hok : TableOk s.vars) (hi : i < ZB_VAR_COUNT)
    (hno : ∀ j, j < ZB_VAR_COUNT → (s.vars j).name ≠ nameAt line ni len)
    (hfree : (s.vars i).name = []) (hfirst : ∀ j, j < i → (s.vars j).name ≠ []) :
    find_var line ni len s = Res.ok i (s.claim i (nameAt line ni len)) := by
  have h := loop_free s.vars line ni len i ((free_iff _ (hok i hi)).mpr hfree) (by omega)
    ZB_VAR_COUNT 0 (Nat.zero_le i) (by omega)
    (fun j _ hj => by
      have := (match_name _ line ni len (hok j (by omega)) hname).not.mpr (hno j (by omega))
      simpa using this)
    (fun j _ hj => (free_iff _ (hok j (by omega))).not.mpr (hfirst j hj))
  simp only [find_var, if_neg (Nat.not_lt.mpr hlen), h, if_neg (Nat.ne_of_lt hi), State.claim,
    hfree, strncpy_nameAt line len ni hname, List.drop_nil, List.append_nil]
  congr 2
  funext j
  by_cases hj : j = i
  · subst hj; simp [hfree]
  · simp [hj]

theorem find_var_full (s : State val) (line : List Nat) (ni len : Nat)
    (hlen : len ≤ ZB_VAR_NAME_LEN) (hname : ∀ k < len, byteAt line (ni + k) ≠ 0)
    (hok : TableOk s.vars)
    (hno : ∀ j, j < ZB_VAR_COUNT → (s.vars j).name ≠ nameAt line ni len)
    (hnf : ∀ j, j < ZB_VAR_COUNT → (s.vars j).name ≠ []) :
    find_var line ni len s = Res.error E_VAR_MEM_FULL s := by
  have h := loop_full s.vars line ni len ZB_VAR_COUNT 0
    (fun j _ hj => by
      have := (match_name _ line ni len (hok j (by omega)) hname).not.mpr (hno j (by omega))
      simpa using this)
    (fun j _ hj => (free_iff _ (hok j (by omega))).not.mpr (hnf j (by omega)))
  simp only [find_var, if_neg (Nat.not_lt.mpr hlen), h, if_true]

/-- What a successful `find_var` has done. -/
theorem find_var_ok (s s1 : State val) (line : List Nat) (ni len i : Nat)
    (hlen : len ≤ ZB_VAR_NAME_LEN) (hname : ∀ k < len, byteAt line (ni + k) ≠ 0)
    (hok : TableOk s.vars) (h : find_var line ni len s = Res.ok i s1) :
    i < ZB_VAR_COUNT ∧ (s1.vars i).name = nameAt line ni len ∧
    (∀ j, j < i → (s1.vars j).name ≠ nameAt line ni len) ∧ TableOk s1.vars ∧
    ((s1 = s ∧ (s.vars i).name = nameAt line ni len) ∨
     (s1 = s.claim i (nameAt line ni len) ∧ (s.vars i).name = [])) := by
  rcases first_or_none (fun j => (s.vars j).name = nameAt line ni len) ZB_VAR_COUNT with
    ⟨m, hm, hp, hf⟩ | hno
  · rw [find_var_found s line ni len m hlen hname hok hm hp hf] at h
    injection h with h1 h2
    subst h1 h2
    exact ⟨hm, hp, hf, hok, Or.inl ⟨rfl, hp⟩⟩
  · rcases first_or_none (fun j => (s.vars j).name = []) ZB_VAR_COUNT with
      ⟨f, hf, hp, hff⟩ | hnf
    · rw [find_var_claim s line ni len f hlen hname hok hf hno hp hff] at h
      injection h with h1 h2
      subst h1 h2
      refine ⟨hf, by simp [State.claim], ?_, ?_, Or.inr ⟨rfl, hp⟩⟩
      · intro j hj
        have : j ≠ f := by omega
        simp only [State.claim, if_neg this]
        exact hno j (by omega)
      · intro j hj b hb
        by_cases hjf : j = f
        · simp only [State.claim, hjf, if_true, nameAt, List.mem_map, List.mem_range] at hb
          obtain ⟨k, hk, rfl⟩ := hb
          exact hname k hk
        · simp only [State.claim, if_neg hjf] at hb
          exact hok j hj b hb
    · rw [find_var_full s line ni len hlen hname hok hno hnf] at h
      cases h

end VarLemmas


/-- C14: the table holds names without NUL bytes (a free slot has the empty
name) and `find_var` is called with a name of 1 to 7 bytes, none of them NUL
(the bytes `nameAt line ni len` of the input line).  Then
* if slot `i` is the first one whose stored name equals the name, the result
  is `i` and the globals are unchanged;
* if no slot holds the name and slot `i` is the first free one, the result is
  `i` and the only change is that slot `i` now holds the name;
* if no slot holds the name and none is free, the call fails with
  `E_VAR_MEM_FULL` and the globals are unchanged.
Whenever a lookup returns `i`, the same lookup done again returns `i` and
changes nothing, and a later lookup of a different name never returns `i`. -/
theorem find_var_spec {val : Type} (s : State val) (line : List Nat) (ni len : Nat)
    (hlen1 : 1 ≤ len) (hlen7 : len ≤ ZB_VAR_NAME_LEN)
    (hname : ∀ k < len, byteAt line (ni + k) ≠ 0) (hok : TableOk s.vars) :
    (∀ i, i < ZB_VAR_COUNT → (s.vars i).name = nameAt line ni len →
      (∀ j, j < i → (s.vars j).name ≠ nameAt line ni len) →
      find_var line ni len s = Res.ok i s) ∧
    ((∀ j, j < ZB_VAR_COUNT → (s.vars j).name ≠ nameAt line ni len) →
      ∀ i, i < ZB_VAR_COUNT → (s.vars i).name = [] → (∀ j, j < i → (s.vars j).name ≠ []) →
      find_var line ni len s = Res.ok i (s.claim i (nameAt line ni len))) ∧
    ((∀ j, j < ZB_VAR_COUNT →
        (s.vars j).name ≠ nameAt line ni len ∧ (s.vars j).name ≠ []) →
      find_var line ni len s = Res.error E_VAR_MEM_FULL s) ∧
    (∀ i s1, find_var line ni len s = Res.ok i s1 →
      find_var line ni len s1 = Res.ok i s1 ∧
      ∀ (line2 : List Nat) (ni2 len2 j : Nat) (s2 : State val), 1 ≤ len2 →
        len2 ≤ ZB_VAR_NAME_LEN → (∀ k < len2, byteAt line2 (ni2 + k) ≠ 0) →
        nameAt line2 ni2 len2 ≠ nameAt line ni len →
        find_var line2 ni2 len2 s1 = Res.ok j s2 → j ≠ i) := by
  refine ⟨fun i hi hm hf => find_var_found s line ni len i hlen7 hname hok hi hm hf,
    fun hno i hi hfree hf => find_var_claim s line ni len i hlen7 hname hok hi hno hfree hf,
    fun h => find_var_full s line ni len hlen7 hname hok (fun j hj => (h j hj).1)
      (fun j hj => (h j hj).2), ?_⟩
  intro i s1 h
  obtain ⟨hi, hn, hf, hok1, _⟩ := find_var_ok s s1 line ni len i hlen7 hname hok h
  refine ⟨find_var_found s1 line ni len i hlen7 hname hok1 hi hn hf, ?_⟩
  intro line2 ni2 len2 j s2 h1 h7 hname2 hne h2 hji
  obtain ⟨_, hn2, _, _, hc⟩ := find_var_ok s1 s2 line2 ni2 len2 j h7 hname2 hok1 h2
  subst hji
  rcases hc with ⟨_, e⟩ | ⟨_, e⟩
  · exact hne (by rw [← e, hn])
  · rw [hn] at e
    have := congrArg List.length e
    rw [nameAt_length] at this
    simp at this
    omega

/-- C14 (witness): with the five host functions registered, `putc` (read from
offset 4 of the line `a = putc`) is found in slot 1 and the table is unchanged;
`ab`, which no slot holds, claims slot 5, the first free one. -/
theorem find_var_spec_witness :
    find_var (bytes "a = putc") 4 4 (init_state intOps) = Res.ok 1 (init_state intOps) ∧
    find_var (bytes "ab") 0 2 (init_state intOps) =
      Res.ok 5 ((init_state intOps).claim 5 (nameAt (bytes "ab") 0 2)) ∧
    nameAt (bytes "a = putc") 4 4 = bytes "putc" ∧
    ((init_state intOps).vars 1).name = bytes "putc" ∧ ((init_state intOps).vars 5).name = [] :=
  ⟨(find_var_spec (init_state intOps) (bytes "a = putc") 4 4 (by decide) (by decide)
      (by decide) (by unfold TableOk; decide!)).1 1 (by decide) (by decide!) (by decide!),
    (find_var_spec (init_state intOps) (bytes "ab") 0 2 (by decide) (by decide)
      (by decide) (by unfold TableOk; decide!)).2.1 (by decide!) 5 (by decide) (by decide!)
      (by decide!),
    by decide, by decide!, by decide!⟩

section LexLemmas
variable {val : Type} (F : ValOps val)

theorem match_congr (p s t : List Nat) (pi si ti len : Nat)
    (h : ∀ j, j < len → byteAt s (si + j) = byteAt t (ti + j)) :
    match_ p s pi si len = match_ p t pi ti len := by
  rw [Bool.eq_iff_iff, match_iff, match_iff]
  constructor
  · rintro ⟨h1, h2⟩
    exact ⟨fun j hj => by rw [h1 j hj, h j hj], h2⟩
  · rintro ⟨h1, h2⟩
    exact ⟨fun j hj => by rw [h1 j hj, h j hj], h2⟩

theorem find_tok_loop_congr (s t : List Nat) (si ti len : Nat)
    (h : ∀ pi, match_ tokstr s pi si len = match_ tokstr t pi ti len) :
    ∀ (k i pi : Nat), find_tok_loop s si len k i pi = find_tok_loop t ti len k i pi := by
  intro k
  induction k with
  | zero => intro i pi; rfl
  | succ k ih =>
    intro i pi
    rw [find_tok_loop, find_tok_loop, h pi, ih]

theorem find_tok_loop_none (s : List Nat) (si len : Nat)
    (h : ∀ pi, match_ tokstr s pi si len = false) :
    ∀ (k i pi : Nat), find_tok_loop s si len k i pi = TOK_NONE := by
  intro k
  induction k with
  | zero => intro i pi; rfl
  | succ k ih =>
    intro i pi
    rw [find_tok_loop, h pi]
    simp only [Bool.false_eq_true, if_false]
    exact ih _ _

/-- The array `tokstr` has 150 bytes, the last two being `F` and NUL, and no
two NULs in a row before its end. -/
theorem tokstr_nuls :
    tokstr.length = 150 ∧ byteAt tokstr 148 = 70 ∧ byteAt tokstr 149 = 0 ∧
    ∀ q, q < 149 → ¬ (byteAt tokstr q = 0 ∧ byteAt tokstr (q + 1) = 0) := by
  decide!

/-- The facts about the lexeme of token `k` that the tokenizer relies on: it
has 1 to 6 bytes; its first byte is neither NUL, white space, a digit, `.`,
a quote nor an apostrophe; its last byte is neither NUL nor `F`; and followed
by NULs it is found in `tokstr` with its whole length as token `k`. -/
theorem lexeme_facts : ∀ k, k < 40 →
    (1 ≤ (lexeme k).length ∧ (lexeme k).length ≤ 6) ∧
    (byteAt (lexeme k) 0 ≠ 0 ∧ byteAt (lexeme k) 0 ≠ 32 ∧ byteAt (lexeme k) 0 ≠ 9 ∧
      byteAt (lexeme k) 0 ≠ 13 ∧ is_digit (byteAt (lexeme k) 0) = false ∧
      byteAt (lexeme k) 0 ≠ 46 ∧ byteAt (lexeme k) 0 ≠ 34 ∧ byteAt (lexeme k) 0 ≠ 39) ∧
    (byteAt (lexeme k) ((lexeme k).length - 1) ≠ 0 ∧
      byteAt (lexeme k) ((lexeme k).length - 1) ≠ 70) ∧
    find_tok (lexeme k ++ [0, 0]) 0 (lexeme k).length = k := by
  decide!

theorem byteAt_lineBuf (l stale : List Nat) (j : Nat) (hj : j < l.length + 2) :
    byteAt (lineBuf l stale) j = byteAt (l ++ [0, 0]) j := by
  have e : lineBuf l stale = (l ++ [0, 0]) ++ stale := by simp [lineBuf]
  rw [e]
  simp only [byteAt]
  exact List.getD_append _ _ _ _ (by simpa using hj)

theorem byteAt_append_left (l r : List Nat) (j : Nat) (hj : j < l.length) :
    byteAt (l ++ r) j = byteAt l j := by
  simp only [byteAt]
  exact List.getD_append _ _ _ _ hj

/-- In the buffer of the line that consists of the lexeme of token `k`, no
entry of `tokstr` matches with a length greater than that of the lexeme, whatever
lies behind the two NULs: such a match would need the lexeme followed by two
NULs in `tokstr`. -/
theorem no_longer_match (k : Nat) (hk : k < 40) (stale : List Nat) (pi len : Nat)
    (hlen : (lexeme k).length < len) :
    match_ tokstr (lineBuf (lexeme k) stale) pi 0 len = false := by
  obtain ⟨⟨hl1, _⟩, _, ⟨c0, c70⟩, _⟩ := lexeme_facts k hk
  obtain ⟨t150, t148, t149, tz⟩ := tokstr_nuls
  rw [Bool.eq_false_iff]
  intro hm
  obtain ⟨h1, h2⟩ := (match_iff tokstr _ len pi 0).mp hm
  have bl : byteAt (lineBuf (lexeme k) stale) (lexeme k).length = 0 := by
    rw [byteAt_lineBuf _ _ _ (by omega)]
    simp [byteAt, List.getD_eq_getElem?_getD, List.getElem_append_right]
  have bl1 : byteAt (lineBuf (lexeme k) stale) ((lexeme k).length + 1) = 0 := by
    rw [byteAt_lineBuf _ _ _ (by omega)]
    simp [byteAt, List.getD_eq_getElem?_getD, List.getElem_append_right]
  have z0 : byteAt tokstr (pi + (lexeme k).length) = 0 := by
    have := h1 (lexeme k).length hlen
    rwa [Nat.zero_add, bl] at this
  have z1 : byteAt tokstr (pi + (lexeme k).length + 1) = 0 := by
    by_cases hl : (lexeme k).length + 1 < len
    · have := h1 ((lexeme k).length + 1) hl
      rwa [Nat.zero_add, bl1, ← Nat.add_assoc] at this
    · have e : len = (lexeme k).length + 1 := by omega
      rw [e, ← Nat.add_assoc] at h2
      exact h2
  have hq : 149 ≤ pi + (lexeme k).length := by
    by_contra hc
    exact tz _ (by omega) ⟨z0, z1⟩
  have hc := h1 ((lexeme k).length - 1) (by omega)
  rw [Nat.zero_add, byteAt_lineBuf _ _ _ (by omega), byteAt_append_left _ _ _ (by omega)] at hc
  by_cases h8 : pi + ((lexeme k).length - 1) = 148
  · rw [h8, t148] at hc
    exact c70 hc.symm
  · by_cases h9 : pi + ((lexeme k).length - 1) = 149
    · rw [h9, t149] at hc
      exact c0 hc.symm
    · rw [byteAt_ge tokstr _ (by omega)] at hc
      exact c0 hc.symm

/-- In that buffer `find_tok` finds the lexeme with its whole length as token
`k` and finds nothing with a greater length. -/
theorem find_tok_lineBuf (k : Nat) (hk : k < 40) (stale : List Nat) :
    find_tok (lineBuf (lexeme k) stale) 0 (lexeme k).length = k ∧
    ∀ i, (lexeme k).length < i → find_tok (lineBuf (lexeme k) stale) 0 i = TOK_NONE := by
  obtain ⟨_, _, _, hfound⟩ := lexeme_facts k hk
  refine ⟨Eq.trans ?_ hfound, fun i hi => find_tok_loop_none _ 0 i
    (fun pi => no_longer_match k hk stale pi i hi) _ _ _⟩
  exact find_tok_loop_congr _ _ 0 0 _
    (fun pi => match_congr tokstr _ _ pi 0 0 _ (fun m hm => by
      rw [Nat.zero_add, byteAt_lineBuf _ _ m (by omega)])) _ _ _

theorem match_longest_tok_spec (line : List Nat) (p l k : Nat) (hl : 1 ≤ l)
    (hk : k ≠ TOK_NONE) (hfound : find_tok line p l = k)
    (hnone : ∀ i, i < 7 → l < i → find_tok line p i = TOK_NONE) (s : State val) :
    ∀ i, i < 7 → l ≤ i → match_longest_tok line p i s =
      (put_tok k >>= fun _ => pure (some (p + (l - 1)))) s := by
  intro i
  induction i with
  | zero => intro _ h; omega
  | succ i ih =>
    intro h7 hli
    rw [match_longest_tok]
    by_cases hi : l = i + 1
    · subst hi
      simp only [hfound, ne_eq, hk, not_false_eq_true, if_true, Nat.add_sub_cancel]
    · simp only [hnone (i + 1) h7 (by omega), ne_eq, not_true_eq_false, if_false]
      exact ih (by omega) (by omega)

end LexLemmas

/-- Lexing a lexeme that has two NULs behind it: for each of the 40 lexemes of
the tokenizer table (token `k < 40`), tokenizing the line that consists of the
lexeme alone appends exactly two bytes, the tag `k` and `TOK_EOF`, and changes
nothing else, when the line lies in the buffer as `fgets` and `main` leave a
line that ended in a newline (`lineBuf`): the lexeme, two NULs, then any bytes
of earlier lines.  Since the longest lexeme wins, `<=`, `<<`,
`**`, `==`, `>=` and `>>` give one tag each.  Fuel 2 suffices. -/
theorem lex_lexeme {val : Type} (F : ValOps val) (k : Nat) (hk : k < 40) (stale : List Nat)
    (s : State val) (n : Nat) (room : s.end_ + 2 < ZB_MEM_SIZE) :
    lex F (n + 2) (lineBuf (lexeme k) stale) s =
      Res.ok () ((s.append [k]).append [TOK_EOF]) := by
  obtain ⟨⟨hl1, hl6⟩, ⟨c0, c1, c2, c3, c4, c5, c6, c7⟩, _, _⟩ := lexeme_facts k hk
  obtain ⟨hfound, hnone⟩ := find_tok_lineBuf k hk stale
  have h0 : byteAt (lineBuf (lexeme k) stale) 0 = byteAt (lexeme k) 0 := by
    rw [byteAt_lineBuf _ _ 0 (by omega), byteAt_append_left _ _ 0 (by omega)]
  have hz : byteAt (lineBuf (lexeme k) stale) (lexeme k).length = 0 := by
    rw [byteAt_lineBuf _ _ _ (by omega)]
    simp [byteAt, List.getD_eq_getElem?_getD, List.getElem_append_right]
  have hm := match_longest_tok_spec (lineBuf (lexeme k) stale) 0 (lexeme k).length k hl1
    (by simp only [TOK_NONE]; omega) hfound (fun i _ hi => hnone i hi) s 6 (by omega) hl6
  have hp1 : put_tok k s = Res.ok () (s.append [k]) := by
    have := @put_tok_ok val k s (by omega)
    rwa [Nat.mod_eq_of_lt (by omega)] at this
  have hp2 : put_tok TOK_EOF (s.append [k]) = Res.ok () ((s.append [k]).append [TOK_EOF]) :=
    @put_tok_ok val TOK_EOF (s.append [k])
      (by simp only [State.append, List.length_singleton]; omega)
  have hs0 : scan (fun c => decide (c = 32 ∨ c = 9 ∨ c = 13)) (lineBuf (lexeme k) stale)
      ((lineBuf (lexeme k) stale).length + 1) 0 = 0 := by
    rw [scan, h0]; simp [c1, c2, c3]
  have hsl : scan (fun c => decide (c = 32 ∨ c = 9 ∨ c = 13)) (lineBuf (lexeme k) stale)
      ((lineBuf (lexeme k) stale).length + 1) (lexeme k).length = (lexeme k).length := by
    rw [scan, hz]; simp
  have hidx : 0 + ((lexeme k).length - 1) + 1 = (lexeme k).length := by omega
  rw [lex, lex_loop]
  simp only [hs0, h0, c0, c4, c5, c6, c7, if_false, Bool.false_eq_true, false_or, bind_apply,
    M.bind, hm, hp1, pure, M.pure, hidx]
  rw [lex_loop]
  simp only [hsl, hz, if_true, hp2]

/-- An instance of `lex_lexeme`: the line `<=`, with the bytes of `=+` left in
the buffer by an earlier line, is tokenized as the single tag `TOK_LE` followed by `TOK_EOF`;
so are `**` and `gosub`. -/
theorem lex_lexeme_witness :
    lexeme 7 = bytes "<=" ∧ TOK_LE = 7 ∧
    lex intOps 2 (lineBuf (lexeme 7) (bytes "=+")) (init_state intOps) =
      Res.ok () (((init_state intOps).append [7]).append [TOK_EOF]) ∧
    lexeme 12 = bytes "**" ∧
    lex intOps 2 (lineBuf (lexeme 12) []) (init_state intOps) =
      Res.ok () (((init_state intOps).append [12]).append [TOK_EOF]) ∧
    lexeme 24 = bytes "gosub" ∧
    lex intOps 2 (lineBuf (lexeme 24) []) (init_state intOps) =
      Res.ok () (((init_state intOps).append [24]).append [TOK_EOF]) :=
  ⟨by decide, by decide,
    lex_lexeme intOps 7 (by decide) (bytes "=+") (init_state intOps) 0 (by decide!),
    by decide,
    lex_lexeme intOps 12 (by decide) [] (init_state intOps) 0 (by decide!),
    by decide,
    lex_lexeme intOps 24 (by decide) [] (init_state intOps) 0 (by decide!)⟩

/-- C15 (the code at the failing input): the input `ab<=2`, newline, `<`, end of
file.  The last line consists of the lexeme `<` alone and has no newline, so in
`buf` one NUL separates it from the bytes `<=2` that the first line left there.
Tokenizing it appends four bytes, `TOK_LT`, `TOK_LIT`, 2, `TOK_EOF`, not the two
bytes `TOK_LT`, `TOK_EOF`: `match` compares `len` bytes whether or not a NUL
lies among them, and with `len = 4` the bytes `<`, NUL, `<=` of the buffer equal
the neighbouring entries `<` and `<=` of `tokstr`; `TOK_LT` is taken as a lexeme
of four bytes and the scan goes on at the stale `2`.  With a newline behind the
`<` the same buffer gives the two bytes. -/
theorem lex_reads_behind_nul :
    lexeme TOK_LT = bytes "<" ∧
    fgets_last (fgets_buf [] (bytes "ab<=2")) (bytes "<") = [60, 0, 60, 61, 50, 0, 0] ∧
    (lex intOps 9 (fgets_last (fgets_buf [] (bytes "ab<=2")) (bytes "<"))
      (init_state intOps)).isOk = true ∧
    ((lex intOps 9 (fgets_last (fgets_buf [] (bytes "ab<=2")) (bytes "<"))
      (init_state intOps)).state (zero_state intOps)).end_ = 4 ∧
    (List.range 4).map ((lex intOps 9 (fgets_last (fgets_buf [] (bytes "ab<=2")) (bytes "<"))
      (init_state intOps)).state (zero_state intOps)).mem = [TOK_LT, TOK_LIT, 2, TOK_EOF] ∧
    ((lex intOps 9 (fgets_buf (fgets_buf [] (bytes "ab<=2")) (bytes "<"))
      (init_state intOps)).state (zero_state intOps)).end_ = 2 ∧
    (List.range 2).map ((lex intOps 9 (fgets_buf (fgets_buf [] (bytes "ab<=2")) (bytes "<"))
      (init_state intOps)).state (zero_state intOps)).mem = [TOK_LT, TOK_EOF] := by
  decide!

theorem fixOps_exact : fixOps.Exact where
  toInt_ofInt := fun n _ _ => by
    show Int.tdiv (64 * n) 64 = n
    rw [Int.mul_comm]; exact Int.mul_tdiv_cancel _ (by decide)
  eq_ofInt := fun a b _ _ _ _ => by
    show decide (64 * a = 64 * b) = decide (a = b)
    congr 1; apply propext; constructor <;> intro h <;> omega
  lt_ofInt := fun a b _ _ _ _ => by
    show decide (64 * a < 64 * b) = decide (a < b)
    congr 1; apply propext; constructor <;> intro h <;> omega
  le_ofInt := fun a b _ _ _ _ => by
    show decide (64 * a ≤ 64 * b) = decide (a ≤ b)
    congr 1; apply propext; constructor <;> intro h <;> omega
  add_ofInt := fun a b _ _ _ _ _ _ => by
    show 64 * a + 64 * b = 64 * (a + b)
    omega
  neg_ofInt := fun a _ _ => by
    show -(64 * a) = 64 * (-a)
    omega
  raw_length := fun _ => rfl
  unraw_raw := fun n h1 h2 => bytesInt_intBytes (64 * n) (by omega) (by omega)

/-- C17 (the code at the failing input): the numbered line `long_line` (85
bytes: `1.5` followed by 41 times `.5`) is tokenized without error into 42
literals of six bytes each, 257 bytes in all with the header and `TOK_EOF`.
`set_chunk_len` stores that count in one byte, so the length byte of the chunk
is 1, not 257, and offset 0 plus the length byte is not the offset of the next
chunk: `20 print 7`, entered next, is stored at offset 257, and `goto 20` fails
with `E_EXPECTED` because `find_line` goes on at offset 1. -/
theorem chunk_length_wraps :
    long_line.length = 85 ∧ atoi long_line = 1 ∧
    (handle_line fixOps 60 long_line (init_state fixOps)).isOk = true ∧
    long_store.end_ = 257 ∧ long_store.mem 0 = TOK_CHUNK ∧ long_store.mem 1 = 1 ∧
    long_store2.mem 257 = TOK_CHUNK ∧ long_store2.mem 258 = 10 ∧ long_store2.end_ = 267 ∧
    (handle_line fixOps 60 (bytes "goto 20") long_store2).err = some E_EXPECTED := by
  decide!

end ZBasic
